import Mathlib

/-!
# Verification of `merge_zsh_histories.go`

A shallow embedding of the zsh-history merging engine
(`src/merge_zsh_histories.go`) and proofs about it.

Strings are modelled as `List Char` (`Str`).  Go's byte-level UTF-8
sanitizer `invalidUTF8` is modelled separately on `List Nat` (byte
values); the rest of the pipeline operates on already-sanitized text,
exactly as in the Go program where `invalidUTF8` runs inside
`readFileContent` before any line processing.

Go functions modelled here (names follow the source):
* `readFileContent`   — `bufio.Scanner` line scan rejoined with `"\n"`;
  the `scanner.Err()` path is modelled too: a physical line reaching
  the scanner's 64 KiB token limit yields `ErrTooLong` and the run
  aborts with no output (`none`)
* `invalidUTF8`       — byte-level sanitizer (separate `Bytes` section)
* `replaceMultilineCommands` — continuation normalizer
* `validLine`         — the regex `^: \d{10,}:\d+;`
* `timestampMatch`    — the regex `:\s*\d{10,}` (unanchored `MatchString`)
* `parseHistoryLine`  — record parser (`strconv.ParseInt`/`Atoi`, 64-bit)
* `insertEntry`       — the merge-table update (`CommandMap` as a list
  with unique command keys, preserving insertion order)
* `sortByTime`        — `sort.Slice` by `Time` (modelled as an insertion
  sort: a sorted permutation; tie order of the *input* list is kept,
  while the real program feeds the sort from randomized map iteration —
  that nondeterminism is modelled by quantifying over input orders)
* `outputMergedCommands` — emission `fmt.Printf(":%11d:%d;%s\n", ...)`
  with placeholder restoration via `strings.ReplaceAll`
* `pipeline`          — the whole run of `main` on a list of file
  contents (already lexically sorted, as `main` sorts its arguments)
-/

abbrev Str := List Char

/-- One zsh history record: command text, `executed_at` (Go `int64`),
duration (Go `int`, 64-bit). -/
structure HistoryEntry where
  Command : Str
  Time : Int
  Duration : Int
deriving DecidableEq, Repr

/-- ASCII decimal digit, Go regexp `\d` (code points 48–57). -/
def isDigit (c : Char) : Bool := 48 ≤ c.toNat && c.toNat ≤ 57

/-- Go regexp `\s`, i.e. `[\t\n\f\r ]`. -/
def isWS (c : Char) : Bool :=
  c == '\t' || c == '\n' || c == '\x0c' || c == '\r' || c == ' '

/-- Go `unicode.IsSpace` on the ASCII range (all characters reaching
`strings.TrimSpace` in this program are ASCII: the validator admits only
a space and digits in the trimmed fields). -/
def isSpace (c : Char) : Bool :=
  c == ' ' || c == '\t' || c == '\n' || c == '\x0b' || c == '\x0c' || c == '\r'

/-- `strings.TrimSpace`. -/
def trimSpace (s : Str) : Str :=
  ((s.dropWhile isSpace).reverse.dropWhile isSpace).reverse

/-- `strings.Split s (String.singleton sep)`: split at every occurrence
of a one-character separator.  Never returns `[]`. -/
def splitOnChar (sep : Char) : Str → List Str
  | [] => [[]]
  | c :: rest =>
    match splitOnChar sep rest with
    | [] => [[]]
    | s :: ss => if c = sep then [] :: s :: ss else (c :: s) :: ss

/-- Join a list of lines with a one-character separator (the inverse of
`splitOnChar`). -/
def joinChar (sep : Char) : List Str → Str
  | [] => []
  | [s] => s
  | s :: rest => s ++ sep :: joinChar sep rest

/-- `strings.SplitN line ";" 2` when the separator occurs: the part
before the first separator and the part after it. -/
def splitFirst (sep : Char) : Str → Option (Str × Str)
  | [] => none
  | c :: rest =>
    if c = sep then some ([], rest)
    else (splitFirst sep rest).map (fun p => (c :: p.1, p.2))

/-- `strings.HasSuffix s (String.singleton c)`. -/
def hasSuffix1 (c : Char) (s : Str) : Bool := s.getLast? == some c

/-- `strings.TrimSuffix s (String.singleton c)`. -/
def trimSuffix1 (c : Char) (s : Str) : Str :=
  if hasSuffix1 c s then s.dropLast else s

/-- The Go regex `: \d{10,}:\d+;` anchored at the start of the line
(`validLineRegex.MatchString`): field marker, one space, at least ten
digits, a colon, at least one digit, a semicolon. -/
def validLine : Str → Bool
  | c1 :: c2 :: rest =>
    c1 == ':' && c2 == ' ' &&
    10 ≤ (rest.takeWhile isDigit).length &&
    (match rest.dropWhile isDigit with
     | c3 :: rest2 =>
       c3 == ':' && 1 ≤ (rest2.takeWhile isDigit).length &&
       (rest2.dropWhile isDigit).head? == some ';'
     | [] => false)
  | _ => false

/-- The Go regex `:\s*\d{10,}` tested *unanchored* on a line
(`timestampRegex.MatchString nextLine`): somewhere in the line, a colon
followed by optional whitespace and at least ten consecutive digits.
Since `\s` and `\d` are disjoint, a match starting at a given colon
exists iff at least ten digits follow the maximal whitespace run. -/
def timestampMatch : Str → Bool
  | [] => false
  | c :: rest =>
    (c == ':' && 10 ≤ ((rest.dropWhile isWS).takeWhile isDigit).length) ||
    timestampMatch rest

/-- The body of `replaceMultilineCommands`: the loop over
`strings.Split content "\n"`, writing each line followed by `"\n"`
except after the last line, and joining a line with a trailing
backslash to the next line (backslash replaced by the placeholder, no
newline) when the next line does not match `timestampRegex`. -/
def rmlLoop (ph : Str) : List Str → Str
  | [] => []
  | [line] => line
  | line :: next :: rest =>
    if hasSuffix1 '\\' line then
      if timestampMatch next then line ++ '\n' :: rmlLoop ph (next :: rest)
      else trimSuffix1 '\\' line ++ ph ++ rmlLoop ph (next :: rest)
    else line ++ '\n' :: rmlLoop ph (next :: rest)

/-- Go `replaceMultilineCommands content multilineCommand`. -/
def replaceMultilineCommands (ph : Str) (content : Str) : Str :=
  rmlLoop ph (splitOnChar '\n' content)

/-- Strip one trailing carriage return (`dropCR` in `bufio.ScanLines`). -/
def dropCR (s : Str) : Str :=
  if s.getLast? == some '\r' then s.dropLast else s

/-- The token sequence produced by `bufio.Scanner` with `ScanLines`:
lines split at `'\n'`, without a trailing empty token for a final
newline, each token stripped of one trailing `'\r'`. -/
def scanTokens (s : Str) : List Str :=
  if s.isEmpty then []
  else
    (match (splitOnChar '\n' s).getLast? with
     | some [] => (splitOnChar '\n' s).dropLast
     | _ => splitOnChar '\n' s).map dropCR

/-- Number of bytes of the UTF-8 encoding of one character
(`utf8.RuneLen` on the valid scalar values a `Char` carries); equals
`(encodeRune c.toNat).length` of the byte-level model below. -/
def charBytes (c : Char) : Nat :=
  if c.toNat < 0x80 then 1
  else if c.toNat < 0x800 then 2
  else if c.toNat < 0x10000 then 3
  else 4

/-- Byte length of a line, as `bufio.Scanner` counts its token. -/
def lineBytes (l : Str) : Nat := (l.map charBytes).sum

/-- `bufio.MaxScanTokenSize`, the default maximal token size of
`bufio.Scanner` (64 KiB). -/
def maxScanTokenSize : Nat := 65536

/-- `bufio.Scanner` with `ScanLines` fails with `ErrTooLong` when a
physical line cannot fit in the token buffer: the buffer holds at most
`maxScanTokenSize` bytes, so a line of that many bytes or more (its
`'\n'`, if any, lies beyond the buffer) is never returned as a
token. -/
def lineTooLong (l : Str) : Bool := decide (maxScanTokenSize ≤ lineBytes l)

/-- Go `readFileContent` minus the byte-level `invalidUTF8` step (which
is modelled separately on bytes and is the identity on valid text):
every scanned token followed by `"\n"`; `none` models the
`scanner.Err()` path — `bufio.Scanner` stops with `ErrTooLong` when
some physical line reaches the 64 KiB token limit, `readFileContent`
returns that error, and the run aborts with no output. -/
def readFileContent (s : Str) : Option Str :=
  if (splitOnChar '\n' s).any lineTooLong then none
  else some (((scanTokens s).map (fun t => t ++ ['\n'])).flatten)

/-- Decimal digit characters of `n`, most significant first, via an
explicit fuel argument (`n + 1` is always enough fuel). -/
def natToDigitsCore : Nat → Nat → Str
  | 0, _ => []
  | fuel + 1, n =>
    if n < 10 then [Char.ofNat (48 + n)]
    else natToDigitsCore fuel (n / 10) ++ [Char.ofNat (48 + n % 10)]

/-- Decimal representation of a natural number. -/
def natToDigits (n : Nat) : Str := natToDigitsCore (n + 1) n

/-- `strconv.FormatInt`, as used by `fmt.Printf` `%d` on an integer. -/
def intToStr (i : Int) : Str :=
  if i < 0 then '-' :: natToDigits (-i).toNat else natToDigits i.toNat

/-- Left-pad with spaces to width `w` (`fmt.Printf` `%11d`). -/
def padLeft (w : Nat) (s : Str) : Str :=
  List.replicate (w - s.length) ' ' ++ s

/-- Numeric value of a pure ASCII digit string; `none` if empty or any
character is not a digit. -/
def parseDigits (s : Str) : Option Nat :=
  if s.isEmpty then none
  else if s.all isDigit then
    some (s.foldl (fun a c => a * 10 + (c.toNat - 48)) 0)
  else none

/-- `strconv.ParseInt s 10 64` (and `strconv.Atoi` on a 64-bit build):
optional sign, decimal digits, error (`none`) on overflow past the
signed 64-bit range. -/
def parseInt64 : Str → Option Int
  | [] => none
  | c :: rest =>
    if c = '+' then
      match parseDigits rest with
      | some n => if n ≤ 2 ^ 63 - 1 then some (n : Int) else none
      | none => none
    else if c = '-' then
      match parseDigits rest with
      | some n => if n ≤ 2 ^ 63 then some (-(n : Int)) else none
      | none => none
    else
      match parseDigits (c :: rest) with
      | some n => if n ≤ 2 ^ 63 - 1 then some (n : Int) else none
      | none => none

/-- Go `parseHistoryLine`: split at the first `';'`, split the
description on `':'` into exactly three parts (the first empty, the
second nonempty), and parse the trimmed timestamp and duration. -/
def parseHistoryLine (line : Str) : Option HistoryEntry :=
  match splitFirst ';' line with
  | none => none
  | some (description, command) =>
    match splitOnChar ':' description with
    | [a, b, c] =>
      if a.isEmpty then
        if b.isEmpty then none
        else
          match parseInt64 (trimSpace b) with
          | none => none
          | some ts =>
            match parseInt64 (trimSpace c) with
            | none => none
            | some d => some ⟨command, ts, d⟩
      else none
    | _ => none

/-- The merge-table update of `processHistoryFile`: on a fresh command
insert the entry, on a known command replace the stored entry iff the
new `Time` is strictly greater (`!exists || entry.Time > existing.Time`).
The Go `CommandMap` is modelled as a list with unique command keys, in
insertion order. -/
def insertEntry : List HistoryEntry → HistoryEntry → List HistoryEntry
  | [], e => [e]
  | x :: t, e =>
    if x.Command = e.Command then
      (if e.Time > x.Time then e else x) :: t
    else x :: insertEntry t e

/-- The line loop of `processHistoryFile`: skip empty lines and lines
failing `validLineRegex`; a parse failure on a matching line is a fatal
error (`log.Fatalf`), modelled as `none`. -/
def processLines : List Str → List HistoryEntry → Option (List HistoryEntry)
  | [], t => some t
  | l :: ls, t =>
    if l.isEmpty || !validLine l then processLines ls t
    else
      match parseHistoryLine l with
      | none => none
      | some e => processLines ls (insertEntry t e)

/-- Go `processHistoryFile` on the contents of one file: a
`readFileContent` error (`ErrTooLong`) is returned and escalated to
`log.Fatalf` by `main`, modelled as `none`. -/
def processHistoryFile (ph raw : Str) (commands : List HistoryEntry) :
    Option (List HistoryEntry) :=
  match readFileContent raw with
  | none => none
  | some content =>
    processLines (splitOnChar '\n' (replaceMultilineCommands ph content)) commands

/-- Fold of `processHistoryFile` over all input files (in `main` the
file name arguments are sorted first; the list here is that sorted
order), aborting on the first error. -/
def mergeFiles (ph : Str) : List Str → List HistoryEntry → Option (List HistoryEntry)
  | [], t => some t
  | f :: fs, t =>
    match processHistoryFile ph f t with
    | none => none
    | some t2 => mergeFiles ph fs t2

/-- Insert an entry into a list sorted ascending by `Time`, after all
entries with a `Time` less than or equal to its own. -/
def insertByTime (e : HistoryEntry) : List HistoryEntry → List HistoryEntry
  | [] => [e]
  | x :: t => if e.Time < x.Time then e :: x :: t else x :: insertByTime e t

/-- `sort.Slice entries (fun i j => entries[i].Time < entries[j].Time)`:
a permutation of the input sorted ascending by `Time` (ties keep the
input order; the real sort is unstable, and its input order comes from
randomized map iteration — see `outputMergedCommands`). -/
def sortByTime (l : List HistoryEntry) : List HistoryEntry :=
  l.foldr insertByTime []

/-- `strings.ReplaceAll s pat rep` with fuel (`s.length` steps always
suffice since each step consumes at least one character of `s`). -/
def replaceAllCore (pat rep : Str) : Nat → Str → Str
  | _, [] => []
  | 0, s => s
  | fuel + 1, c :: rest =>
    if pat.isPrefixOf (c :: rest) then
      rep ++ replaceAllCore pat rep fuel (rest.drop (pat.length - 1))
    else c :: replaceAllCore pat rep fuel rest

/-- `strings.ReplaceAll s pat rep`: replace every non-overlapping
occurrence of `pat`, scanning left to right.  The placeholder pattern
of the program (`TO_BE_REMOVED_<unix-time>`) is never empty; for an
empty `pat` this model returns `s` unchanged. -/
def replaceAll (s pat rep : Str) : Str :=
  if pat.isEmpty then s else replaceAllCore pat rep s.length s

/-- One output line of `outputMergedCommands`:
`fmt.Printf(":%11d:%d;%s\n", entry.Time, entry.Duration, command)`
where `command` is the stored command with every occurrence of the
placeholder replaced by `"\\\n"`. -/
def emitLine (ph : Str) (e : HistoryEntry) : Str :=
  ':' :: padLeft 11 (intToStr e.Time) ++
    ':' :: intToStr e.Duration ++
    ';' :: replaceAll e.Command ph ['\\', '\n'] ++ ['\n']

/-- Go `outputMergedCommands` applied to an extraction order `entries`
of the merge table.  In the program the order comes from Go's
randomized map iteration; claims about run-to-run behaviour quantify
over permutations of this argument. -/
def outputMergedCommands (ph : Str) (entries : List HistoryEntry) : Str :=
  ((sortByTime entries).map (emitLine ph)).flatten

/-- A whole run of `main` on the given (sorted) list of file contents,
with the merge table extracted in insertion order: `none` models
`log.Fatalf`, `some out` the bytes written to standard output. -/
def pipeline (ph : Str) (files : List Str) : Option Str :=
  match mergeFiles ph files [] with
  | none => none
  | some t => some (outputMergedCommands ph t)

/-- The logical line of a record as the validator and parser see it:
marker, space, timestamp digits, colon, duration digits, semicolon,
command body. -/
def recordBody (t d : Nat) (cmd : Str) : Str :=
  ':' :: ' ' :: natToDigits t ++ ':' :: natToDigits d ++ ';' :: cmd

/-- `commands[entry.Command]` : lookup in the modelled `CommandMap`. -/
def lookupCmd (t : List HistoryEntry) (k : Str) : Option HistoryEntry :=
  t.find? (fun x => x.Command == k)

/-- The whole dedup loop applied to a stream of parsed records. -/
def mergeAll (rs : List HistoryEntry) : List HistoryEntry :=
  rs.foldl insertEntry []

/-- Projection of one `insertEntry` step onto a single key. -/
def dedupStep (k : Str) (acc : Option HistoryEntry) (x : HistoryEntry) :
    Option HistoryEntry :=
  if x.Command = k then
    match acc with
    | none => some x
    | some a => if x.Time > a.Time then some x else acc
  else acc

/-- A representative run of the placeholder token: the program computes
`fmt.Sprintf("TO_BE_REMOVED_%d", time.Now().Unix())` once per run. -/
def phTok : Str := "TO_BE_REMOVED_1700000000".toList

/-- Two distinct commands sharing one timestamp (a dedup-order tie). -/
def tieA : HistoryEntry := ⟨['a'], 1600000000, 0⟩

/-- See `tieA`. -/
def tieB : HistoryEntry := ⟨['b'], 1600000000, 0⟩

/-- One command recorded twice at the same timestamp, first duration 1. -/
def dupA : HistoryEntry := ⟨['l', 's'], 1600000000, 1⟩

/-- Same command and timestamp as `dupA`, duration 2. -/
def dupB : HistoryEntry := ⟨['l', 's'], 1600000000, 2⟩

/-- An entry whose timestamp needs eleven decimal digits. -/
def e11dig : HistoryEntry := ⟨['x'], 12345678901, 0⟩

/-- An entry with a ten-digit timestamp (generic witness data). -/
def ordA : HistoryEntry := ⟨['p', 'w', 'd'], 1600000001, 0⟩

/-- A second entry, with a smaller ten-digit timestamp than `ordA`. -/
def ordB : HistoryEntry := ⟨['l', 's'], 1600000000, 0⟩

/-! ## Byte-level model of `invalidUTF8` (Go `unicode/utf8`)

`readFileContent` sanitizes the raw bytes with `invalidUTF8` before any
text processing.  Bytes are modelled as natural numbers below 256. -/

/-- Byte strings. -/
abbrev Bytes := List Nat

/-- Lower bound of the accepted second byte for a given lead byte
(Go `utf8.acceptRanges`). -/
def acceptLo (b0 : Nat) : Nat :=
  if b0 = 0xE0 then 0xA0 else if b0 = 0xF0 then 0x90 else 0x80

/-- Upper bound of the accepted second byte for a given lead byte. -/
def acceptHi (b0 : Nat) : Nat :=
  if b0 = 0xED then 0x9F else if b0 = 0xF4 then 0x8F else 0xBF

/-- Go `utf8.DecodeRuneInString`: the first rune of the byte string and
the number of bytes it occupies.  Every malformed, truncated, overlong
or surrogate-encoding sequence yields `(RuneError, 1)`, i.e.
`(0xFFFD, 1)`; the empty string yields `(RuneError, 0)`. -/
def decodeRuneAux (b0 : Nat) (rest : Bytes) : Nat × Nat :=
  if b0 < 0x80 then (b0, 1)
  else if 0xC2 ≤ b0 ∧ b0 ≤ 0xDF then
    match rest with
    | b1 :: _ =>
      if acceptLo b0 ≤ b1 ∧ b1 ≤ acceptHi b0 then
        ((b0 - 0xC0) * 64 + (b1 - 0x80), 2)
      else (0xFFFD, 1)
    | [] => (0xFFFD, 1)
  else if 0xE0 ≤ b0 ∧ b0 ≤ 0xEF then
    match rest with
    | b1 :: b2 :: _ =>
      if (acceptLo b0 ≤ b1 ∧ b1 ≤ acceptHi b0) ∧ (0x80 ≤ b2 ∧ b2 ≤ 0xBF) then
        ((b0 - 0xE0) * 4096 + (b1 - 0x80) * 64 + (b2 - 0x80), 3)
      else (0xFFFD, 1)
    | _ => (0xFFFD, 1)
  else if 0xF0 ≤ b0 ∧ b0 ≤ 0xF4 then
    match rest with
    | b1 :: b2 :: b3 :: _ =>
      if (acceptLo b0 ≤ b1 ∧ b1 ≤ acceptHi b0) ∧ (0x80 ≤ b2 ∧ b2 ≤ 0xBF) ∧
          (0x80 ≤ b3 ∧ b3 ≤ 0xBF) then
        ((b0 - 0xF0) * 262144 + (b1 - 0x80) * 4096 + (b2 - 0x80) * 64 + (b3 - 0x80), 4)
      else (0xFFFD, 1)
    | _ => (0xFFFD, 1)
  else (0xFFFD, 1)

/-- See `decodeRuneAux`; on the empty string Go returns
`(RuneError, 0)`. -/
def decodeRune : Bytes → Nat × Nat
  | [] => (0xFFFD, 0)
  | b0 :: rest => decodeRuneAux b0 rest

/-- UTF-8 encoding of a Unicode scalar value
(`strings.Builder.WriteRune`; the callers below only ever pass scalar
values produced by `decodeRune`, or `'#'`). -/
def encodeRune (r : Nat) : Bytes :=
  if r < 0x80 then [r]
  else if r < 0x800 then [0xC0 + r / 64, 0x80 + r % 64]
  else if r < 0x10000 then [0xE0 + r / 4096, 0x80 + r / 64 % 64, 0x80 + r % 64]
  else [0xF0 + r / 262144, 0x80 + r / 4096 % 64, 0x80 + r / 64 % 64, 0x80 + r % 64]

/-- `utf8.ValidString` via the decoder, with fuel (decoding consumes at
least one byte per step, so `s.length` steps always suffice). -/
def utf8ValidCore : Nat → Bytes → Bool
  | _, [] => true
  | 0, _ => false
  | fuel + 1, s =>
    if (decodeRune s).1 = 0xFFFD ∧ (decodeRune s).2 = 1 then false
    else utf8ValidCore fuel (s.drop (decodeRune s).2)

/-- `utf8.ValidString s`. -/
def utf8Valid (s : Bytes) : Bool := utf8ValidCore s.length s

/-- The repair loop of Go `invalidUTF8`: decode one rune at a time,
emitting `'#'` (byte 35) for each invalid byte unit and re-encoding
every valid rune. -/
def sanitizeCore : Nat → Bytes → Bytes
  | _, [] => []
  | 0, s => s
  | fuel + 1, s =>
    (if (decodeRune s).1 = 0xFFFD ∧ (decodeRune s).2 = 1 then [35]
     else encodeRune (decodeRune s).1) ++
      sanitizeCore fuel (s.drop (decodeRune s).2)

/-- The repair loop applied to a whole byte string. -/
def sanitizeAll (s : Bytes) : Bytes := sanitizeCore s.length s

/-- Go `invalidUTF8`: return valid input unchanged, otherwise repair. -/
def invalidUTF8 (s : Bytes) : Bytes :=
  if utf8Valid s then s else sanitizeAll s

/-- The decode steps of a byte string: each step's rune value together
with a flag marking an invalid byte unit (`(RuneError, 1)`). -/
def runeStepsCore : Nat → Bytes → List (Nat × Bool)
  | _, [] => []
  | 0, _ => []
  | fuel + 1, s =>
    ((decodeRune s).1, decide ((decodeRune s).1 = 0xFFFD ∧ (decodeRune s).2 = 1)) ::
      runeStepsCore fuel (s.drop (decodeRune s).2)

/-- See `runeStepsCore`. -/
def runeSteps (s : Bytes) : List (Nat × Bool) := runeStepsCore s.length s

/-- Unicode scalar values: the rune values `decodeRune` can return for
well-formed sequences. -/
def scalarOK (r : Nat) : Prop := r < 0xD800 ∨ (0xDFFF < r ∧ r < 0x110000)

/-- Modelled from the claim wording for C2: the record-start grammar as
the claim states it — the line starts with the field marker, then a
numeric timestamp of at least ten digits, then a colon.  (The code
itself tests the unanchored pattern `:\\s*\\d{10,}` instead; this
definition exists only to compare the two.) -/
def specRecordStart : Str → Bool
  | c :: rest =>
    c == ':' &&
    10 ≤ (rest.takeWhile isDigit).length &&
    (rest.dropWhile isDigit).head? == some ':'
  | [] => false

/-- A file whose record grammar is fine but whose duration overflows a
signed 64-bit integer (twenty nines). -/
def cexC4 : Str := ": 1234567890:99999999999999999999;x\n".toList

/-- A file mixing a malformed line with a well-formed record. -/
def cexC4good : Str := "garbage\n: 1600000000:0;ok\n".toList

/-- A continuation-free record whose command text happens to be the
run's placeholder token. -/
def cexC10 : Str := ": 1600000000:0;".toList ++ phTok ++ ['\n']

/-- Join a list of segments with a string separator (the shape of a
multi-line command: segments joined by placeholder or by the literal
continuation sequence). -/
def joinS (sep : Str) : List Str → Str
  | [] => []
  | [s] => s
  | s :: rest => s ++ sep ++ joinS sep rest

/-- The physical lines (as split at newlines, with the final empty
token) of a record whose command spans the given segments: every
segment but the last ends the line with the continuation backslash. -/
def mkPhys : Str → List Str → List Str
  | acc, [] => [acc, []]
  | acc, [s] => [acc ++ s, []]
  | acc, s :: rest => (acc ++ s ++ ['\\']) :: mkPhys [] rest

/-- The full text of one record including its terminating newline. -/
def recordText (t d : Nat) (cmd : Str) : Str := recordBody t d cmd ++ ['\n']

/-- A word with no nonempty proper border: no proper prefix equals the
suffix of the same length.  The placeholder token has this property,
which makes its occurrences in a segment-joined string unambiguous. -/
def BorderFree (p : Str) : Prop :=
  ∀ k, k < p.length → 0 < k → p.take k ≠ p.drop (p.length - k)

/-! ## Basic lemmas about the string toolkit -/

theorem splitOnChar_ne_nil (sep : Char) (s : Str) : splitOnChar sep s ≠ [] := by
  cases s with
  | nil => simp [splitOnChar]
  | cons c rest =>
    simp only [splitOnChar]
    cases h : splitOnChar sep rest with
    | nil => simp
    | cons a as =>
      by_cases hc : c = sep <;> simp [hc]

theorem joinChar_splitOnChar (sep : Char) (s : Str) :
    joinChar sep (splitOnChar sep s) = s := by
  induction s with
  | nil => rfl
  | cons c rest ih =>
    simp only [splitOnChar]
    cases h : splitOnChar sep rest with
    | nil => exact absurd h (splitOnChar_ne_nil sep rest)
    | cons a as =>
      rw [h] at ih
      by_cases hc : c = sep
      · subst hc
        simpa [joinChar] using ih
      · simp only [if_neg hc]
        cases as with
        | nil => simpa [joinChar] using ih
        | cons b bs => simpa [joinChar] using ih

theorem splitOnChar_not_mem {sep : Char} {s : Str} (h : sep ∉ s) :
    splitOnChar sep s = [s] := by
  induction s with
  | nil => rfl
  | cons c rest ih =>
    simp only [List.mem_cons, not_or] at h
    have hcs : ¬ c = sep := fun hc => h.1 hc.symm
    simp only [splitOnChar, ih h.2, if_neg hcs]

theorem splitOnChar_append_cons {sep : Char} {a : Str} (b : Str) (h : sep ∉ a) :
    splitOnChar sep (a ++ sep :: b) = a :: splitOnChar sep b := by
  induction a with
  | nil =>
    simp only [List.nil_append, splitOnChar]
    cases hb : splitOnChar sep b with
    | nil => exact absurd hb (splitOnChar_ne_nil sep b)
    | cons x xs => simp
  | cons c rest ih =>
    simp only [List.mem_cons, not_or] at h
    have hcs : ¬ c = sep := fun hc => h.1 hc.symm
    simp only [List.cons_append, splitOnChar, List.append_eq]
    rw [ih h.2]
    simp [if_neg hcs]

theorem infix_of_mem_joinChar {sep : Char} {pieces : List Str} {l : Str}
    (hl : l ∈ pieces) : l <:+: joinChar sep pieces := by
  induction pieces with
  | nil => simp at hl
  | cons s rest ih =>
    cases rest with
    | nil =>
      simp only [List.mem_singleton] at hl
      simp [hl, joinChar]
    | cons s2 rest2 =>
      rcases List.mem_cons.mp hl with h1 | h1
      · subst h1
        exact (List.prefix_append l (sep :: joinChar sep (s2 :: rest2))).isInfix
      · have := ih h1
        calc l <:+: joinChar sep (s2 :: rest2) := this
          _ <:+: s ++ sep :: joinChar sep (s2 :: rest2) :=
            ((List.suffix_cons sep _).trans (List.suffix_append s _)).isInfix

theorem infix_of_mem_splitOnChar {sep : Char} {s : Str} {l : Str}
    (hl : l ∈ splitOnChar sep s) : l <:+: s :=
  joinChar_splitOnChar sep s ▸ infix_of_mem_joinChar hl

theorem takeWhile_all_append {p : Char → Bool} {a : Str} (b0 : Char) (b : Str)
    (ha : ∀ c ∈ a, p c = true) (hb : p b0 = false) :
    (a ++ b0 :: b).takeWhile p = a := by
  induction a with
  | nil => simp [List.takeWhile, hb]
  | cons c rest ih =>
    have hc : p c = true := ha c (List.mem_cons_self c rest)
    simp only [List.cons_append, List.takeWhile_cons, hc, if_true]
    rw [ih (fun x hx => ha x (List.mem_cons_of_mem c hx))]

theorem dropWhile_all_append {p : Char → Bool} {a : Str} (b0 : Char) (b : Str)
    (ha : ∀ c ∈ a, p c = true) (hb : p b0 = false) :
    (a ++ b0 :: b).dropWhile p = b0 :: b := by
  induction a with
  | nil => simp [List.dropWhile, hb]
  | cons c rest ih =>
    have hc : p c = true := ha c (List.mem_cons_self c rest)
    simp only [List.cons_append, List.dropWhile_cons, hc, if_true]
    exact ih (fun x hx => ha x (List.mem_cons_of_mem c hx))

theorem natToDigitsCore_congr :
    ∀ n f g, n < f → n < g → natToDigitsCore f n = natToDigitsCore g n := by
  intro n
  induction n using Nat.strong_induction_on with
  | _ n ih =>
    intro f g hf hg
    match f, g with
    | f' + 1, g' + 1 =>
      simp only [natToDigitsCore]
      by_cases h10 : n < 10
      · simp [h10]
      · have hlt : n / 10 < n := Nat.div_lt_self (by omega) (by omega)
        simp only [if_neg h10]
        rw [ih (n / 10) hlt f' g' (by omega) (by omega)]

theorem natToDigits_eq (n : Nat) :
    natToDigits n =
      if n < 10 then [Char.ofNat (48 + n)]
      else natToDigits (n / 10) ++ [Char.ofNat (48 + n % 10)] := by
  by_cases h10 : n < 10
  · simp [natToDigits, natToDigitsCore, h10]
  · have hlt : n / 10 < n := Nat.div_lt_self (by omega) (by omega)
    rw [if_neg h10]
    unfold natToDigits
    have hstep : natToDigitsCore (n + 1) n =
        natToDigitsCore n (n / 10) ++ [Char.ofNat (48 + n % 10)] := by
      simp only [natToDigitsCore, if_neg h10]
    rw [hstep, natToDigitsCore_congr (n / 10) n (n / 10 + 1) hlt (by omega)]

theorem isDigit_ofNat {d : Nat} (hd : d < 10) : isDigit (Char.ofNat (48 + d)) = true := by
  interval_cases d <;> decide

theorem natToDigits_all_digits (n : Nat) : ∀ c ∈ natToDigits n, isDigit c = true := by
  induction n using Nat.strong_induction_on with
  | _ n ih =>
    intro c hc
    rw [natToDigits_eq] at hc
    by_cases h10 : n < 10
    · simp only [if_pos h10, List.mem_singleton] at hc
      exact hc ▸ isDigit_ofNat h10
    · have hlt : n / 10 < n := Nat.div_lt_self (by omega) (by omega)
      simp only [if_neg h10, List.mem_append, List.mem_singleton] at hc
      rcases hc with hc | hc
      · exact ih (n / 10) hlt c hc
      · exact hc ▸ isDigit_ofNat (Nat.mod_lt n (by omega))

theorem natToDigits_ne_nil (n : Nat) : natToDigits n ≠ [] := by
  rw [natToDigits_eq]
  by_cases h10 : n < 10 <;> simp [h10]

theorem natToDigits_length :
    ∀ k n, 10 ^ k ≤ n → n < 10 ^ (k + 1) → (natToDigits n).length = k + 1 := by
  intro k
  induction k with
  | zero =>
    intro n h1 h2
    rw [natToDigits_eq, if_pos (by simpa using h2)]
    rfl
  | succ k ih =>
    intro n h1 h2
    have hpos : 0 < (10 : Nat) ^ k := pow_pos (by omega) k
    have e1 : (10 : Nat) ^ (k + 1) = 10 ^ k * 10 := by ring
    have e2 : (10 : Nat) ^ (k + 2) = 10 ^ (k + 1) * 10 := by ring
    have h10 : ¬ n < 10 := by omega
    rw [natToDigits_eq, if_neg h10]
    have hdiv1 : 10 ^ k ≤ n / 10 := by omega
    have hdiv2 : n / 10 < 10 ^ (k + 1) := by omega
    simp [List.length_append, ih (n / 10) hdiv1 hdiv2]

theorem parseDigits_append_digit {s : Str} {d : Nat} (hd : d < 10)
    (hs : ∀ c ∈ s, isDigit c = true) :
    parseDigits (s ++ [Char.ofNat (48 + d)]) =
      some ((s.foldl (fun a c => a * 10 + (c.toNat - 48)) 0) * 10 + d) := by
  have hdig : isDigit (Char.ofNat (48 + d)) = true := isDigit_ofNat hd
  have hall : (s ++ [Char.ofNat (48 + d)]).all isDigit = true := by
    simp only [List.all_eq_true]
    intro c hc
    rcases List.mem_append.mp hc with h | h
    · exact hs c h
    · simp only [List.mem_singleton] at h
      exact h ▸ hdig
  have hne : ¬ (s ++ [Char.ofNat (48 + d)]).isEmpty = true := by
    simp [List.isEmpty_iff]
  simp only [parseDigits, if_neg hne, hall, if_true, List.foldl_append, List.foldl_cons,
    List.foldl_nil, Option.some.injEq]
  have : (Char.ofNat (48 + d)).toNat = 48 + d := by
    interval_cases d <;> decide
  omega

theorem foldl_natToDigits (n : Nat) :
    (natToDigits n).foldl (fun a c => a * 10 + (c.toNat - 48)) 0 = n := by
  induction n using Nat.strong_induction_on with
  | _ n ih =>
    rw [natToDigits_eq]
    by_cases h10 : n < 10
    · simp only [if_pos h10, List.foldl_cons, List.foldl_nil]
      have : (Char.ofNat (48 + n)).toNat = 48 + n := by
        interval_cases n <;> decide
      omega
    · have hlt : n / 10 < n := Nat.div_lt_self (by omega) (by omega)
      simp only [if_neg h10, List.foldl_append, List.foldl_cons, List.foldl_nil, ih (n / 10) hlt]
      have : (Char.ofNat (48 + n % 10)).toNat = 48 + n % 10 := by
        have := Nat.mod_lt n (y := 10) (by omega)
        interval_cases h : n % 10 <;> decide
      omega

theorem parseDigits_natToDigits (n : Nat) : parseDigits (natToDigits n) = some n := by
  have hall : (natToDigits n).all isDigit = true := by
    simp only [List.all_eq_true]
    exact natToDigits_all_digits n
  have hne : ¬ (natToDigits n).isEmpty = true := by
    simp [List.isEmpty_iff, natToDigits_ne_nil n]
  simp only [parseDigits, if_neg hne, hall, if_true, foldl_natToDigits]

theorem isDigit_bounds {c : Char} (h : isDigit c = true) :
    48 ≤ c.toNat ∧ c.toNat ≤ 57 := by
  simpa [isDigit] using h

theorem isDigit_ne_plus {c : Char} (h : isDigit c = true) : c ≠ '+' := by
  have hb := isDigit_bounds h
  intro he
  subst he
  exact absurd hb (by decide)

theorem isDigit_ne_minus {c : Char} (h : isDigit c = true) : c ≠ '-' := by
  have hb := isDigit_bounds h
  intro he
  subst he
  exact absurd hb (by decide)

theorem isDigit_ne_colon {c : Char} (h : isDigit c = true) : c ≠ ':' := by
  have hb := isDigit_bounds h
  intro he
  subst he
  exact absurd hb (by decide)

theorem isDigit_ne_semi {c : Char} (h : isDigit c = true) : c ≠ ';' := by
  have hb := isDigit_bounds h
  intro he
  subst he
  exact absurd hb (by decide)

theorem isDigit_ne_nl {c : Char} (h : isDigit c = true) : c ≠ '\n' := by
  have hb := isDigit_bounds h
  intro he
  subst he
  exact absurd hb (by decide)

theorem isDigit_ne_cr {c : Char} (h : isDigit c = true) : c ≠ '\r' := by
  have hb := isDigit_bounds h
  intro he
  subst he
  exact absurd hb (by decide)

theorem isDigit_ne_bs {c : Char} (h : isDigit c = true) : c ≠ '\\' := by
  have hb := isDigit_bounds h
  intro he
  subst he
  exact absurd hb (by decide)

theorem isDigit_not_space {c : Char} (h : isDigit c = true) : isSpace c = false := by
  have hb := isDigit_bounds h
  simp only [isSpace, Bool.or_eq_false_iff]
  refine ⟨⟨⟨⟨⟨?_, ?_⟩, ?_⟩, ?_⟩, ?_⟩, ?_⟩ <;>
    (rw [beq_eq_false_iff_ne]; intro he; subst he; exact absurd hb (by decide))

theorem isDigit_not_ws {c : Char} (h : isDigit c = true) : isWS c = false := by
  have hb := isDigit_bounds h
  simp only [isWS, Bool.or_eq_false_iff]
  refine ⟨⟨⟨⟨?_, ?_⟩, ?_⟩, ?_⟩, ?_⟩ <;>
    (rw [beq_eq_false_iff_ne]; intro he; subst he; exact absurd hb (by decide))

theorem trimSpace_no_space {s : Str} (h : ∀ c ∈ s, isSpace c = false) :
    trimSpace s = s := by
  have h1 : s.dropWhile isSpace = s := by
    cases s with
    | nil => rfl
    | cons c rest =>
      rw [List.dropWhile_cons, if_neg]
      simp [h c (List.mem_cons_self c rest)]
  have h2 : s.reverse.dropWhile isSpace = s.reverse := by
    cases hr : s.reverse with
    | nil => rfl
    | cons c rest =>
      rw [List.dropWhile_cons, if_neg]
      have : c ∈ s := by
        rw [← List.mem_reverse, hr]
        exact List.mem_cons_self c rest
      simp [h c this]
  rw [trimSpace, h1, h2, List.reverse_reverse]

theorem trimSpace_space_digits {s : Str} (h : ∀ c ∈ s, isDigit c = true) :
    trimSpace (' ' :: s) = s := by
  have hs : ∀ c ∈ s, isSpace c = false := fun c hc => isDigit_not_space (h c hc)
  have h1 : (' ' :: s).dropWhile isSpace = s := by
    rw [List.dropWhile_cons, if_pos (by decide)]
    cases s with
    | nil => rfl
    | cons c rest =>
      rw [List.dropWhile_cons, if_neg]
      simp [hs c (List.mem_cons_self c rest)]
  have h2 : s.reverse.dropWhile isSpace = s.reverse := by
    cases hr : s.reverse with
    | nil => rfl
    | cons c rest =>
      rw [List.dropWhile_cons, if_neg]
      have : c ∈ s := by
        rw [← List.mem_reverse, hr]
        exact List.mem_cons_self c rest
      simp [hs c this]
  rw [trimSpace, h1, h2, List.reverse_reverse]

theorem parseInt64_natToDigits {n : Nat} (h : n ≤ 2 ^ 63 - 1) :
    parseInt64 (natToDigits n) = some (n : Int) := by
  rcases hcr : natToDigits n with _ | ⟨c, rest⟩
  · exact absurd hcr (natToDigits_ne_nil n)
  · have hc : isDigit c = true :=
      natToDigits_all_digits n c (hcr ▸ List.mem_cons_self c rest)
    rw [parseInt64, if_neg (isDigit_ne_plus hc), if_neg (isDigit_ne_minus hc), ← hcr,
      parseDigits_natToDigits]
    simp only [Option.some.injEq]
    rw [if_pos (by omega : n ≤ 2 ^ 63 - 1)]

theorem splitFirst_append {sep : Char} {a : Str} (b : Str) (h : sep ∉ a) :
    splitFirst sep (a ++ sep :: b) = some (a, b) := by
  induction a with
  | nil => simp [splitFirst]
  | cons c rest ih =>
    simp only [List.mem_cons, not_or] at h
    have hcs : ¬ c = sep := fun hc => h.1 hc.symm
    simp only [List.cons_append, splitFirst, if_neg hcs, List.append_eq]
    rw [ih h.2]
    rfl

theorem splitFirst_suffix {sep : Char} :
    ∀ {l d c : Str}, splitFirst sep l = some (d, c) → c <:+ l := by
  intro l
  induction l with
  | nil => intro d c h; simp [splitFirst] at h
  | cons x rest ih =>
    intro d c h
    simp only [splitFirst] at h
    by_cases hx : x = sep
    · rw [if_pos hx] at h
      simp only [Option.some.injEq, Prod.mk.injEq] at h
      exact h.2 ▸ (List.suffix_cons x rest)
    · rw [if_neg hx] at h
      cases hsf : splitFirst sep rest with
      | none => rw [hsf] at h; simp at h
      | some p =>
        rw [hsf] at h
        simp at h
        have := ih (d := p.1) (c := p.2) (by rw [hsf])
        exact (h.2 ▸ this).trans (List.suffix_cons x rest)

theorem validLine_recordBody {t d : Nat} (cmd : Str)
    (h10 : 10 ≤ (natToDigits t).length) :
    validLine (recordBody t d cmd) = true := by
  have hT := natToDigits_all_digits t
  have hD := natToDigits_all_digits d
  have htk : ((natToDigits t ++ ':' :: (natToDigits d ++ ';' :: cmd)).takeWhile isDigit)
      = natToDigits t := takeWhile_all_append ':' _ hT (by decide)
  have hdr : ((natToDigits t ++ ':' :: (natToDigits d ++ ';' :: cmd)).dropWhile isDigit)
      = ':' :: (natToDigits d ++ ';' :: cmd) := dropWhile_all_append ':' _ hT (by decide)
  have htk2 : ((natToDigits d ++ ';' :: cmd).takeWhile isDigit) = natToDigits d :=
    takeWhile_all_append ';' _ hD (by decide)
  have hdr2 : ((natToDigits d ++ ';' :: cmd).dropWhile isDigit) = ';' :: cmd :=
    dropWhile_all_append ';' _ hD (by decide)
  have hlen : 1 ≤ (natToDigits d).length := by
    cases hnd : natToDigits d with
    | nil => exact absurd hnd (natToDigits_ne_nil d)
    | cons a as => simp
  simp only [recordBody, validLine, List.cons_append, List.append_assoc]
  simp only [htk, hdr, htk2, hdr2]
  simp [h10, hlen]

theorem parseHistoryLine_recordBody {t d : Nat} (cmd : Str)
    (ht : t ≤ 2 ^ 63 - 1) (hd : d ≤ 2 ^ 63 - 1) :
    parseHistoryLine (recordBody t d cmd) = some ⟨cmd, (t : Int), (d : Int)⟩ := by
  have hT := natToDigits_all_digits t
  have hD := natToDigits_all_digits d
  have hnosemi : ';' ∉ (':' :: ' ' :: natToDigits t ++ ':' :: natToDigits d : Str) := by
    intro hmem
    simp only [List.cons_append, List.mem_cons, List.mem_append] at hmem
    rcases hmem with h | h | h | h | h
    · exact absurd h (by decide)
    · exact absurd h (by decide)
    · exact isDigit_ne_semi (hT _ h) rfl
    · exact absurd h (by decide)
    · exact isDigit_ne_semi (hD _ h) rfl
  have hsplit : splitFirst ';' (recordBody t d cmd) =
      some (':' :: ' ' :: natToDigits t ++ ':' :: natToDigits d, cmd) := by
    have := @splitFirst_append ';'
      (':' :: ' ' :: natToDigits t ++ ':' :: natToDigits d) cmd hnosemi
    simpa [recordBody] using this
  have hnocolon1 : ':' ∉ (' ' :: natToDigits t : Str) := by
    intro hmem
    rcases List.mem_cons.mp hmem with h | h
    · exact absurd h.symm (by decide)
    · exact isDigit_ne_colon (hT _ h) rfl
  have hnocolon2 : ':' ∉ natToDigits d := fun h => isDigit_ne_colon (hD _ h) rfl
  have hsplit2 : splitOnChar ':' (':' :: ' ' :: natToDigits t ++ ':' :: natToDigits d) =
      [[], ' ' :: natToDigits t, natToDigits d] := by
    rw [show (':' :: ' ' :: natToDigits t ++ ':' :: natToDigits d : Str) =
        ([] : Str) ++ ':' :: ((' ' :: natToDigits t) ++ ':' :: natToDigits d) from by simp]
    rw [splitOnChar_append_cons _ (by simp), splitOnChar_append_cons _ hnocolon1,
      splitOnChar_not_mem hnocolon2]
  rw [parseHistoryLine, hsplit]
  simp only [hsplit2]
  rw [trimSpace_space_digits hT, trimSpace_no_space (fun c hc => isDigit_not_space (hD c hc)),
    parseInt64_natToDigits ht, parseInt64_natToDigits hd]
  simp

theorem intToStr_natCast (n : Nat) : intToStr (n : Int) = natToDigits n := by
  rw [intToStr, if_neg (by omega)]
  simp

theorem emitLine_eq (ph cmd : Str) {t d : Nat} (h1 : 10 ^ 9 ≤ t) (h2 : t < 10 ^ 10) :
    emitLine ph ⟨cmd, (t : Int), (d : Int)⟩ =
      recordBody t d (replaceAll cmd ph ['\\', '\n']) ++ ['\n'] := by
  have hlen : (natToDigits t).length = 10 := natToDigits_length 9 t h1 h2
  simp only [emitLine, intToStr_natCast, padLeft, hlen, recordBody]
  simp [List.append_assoc]

/-! ## Merge table lemmas -/

theorem lookupCmd_cons (x : HistoryEntry) (t : List HistoryEntry) (k : Str) :
    lookupCmd (x :: t) k = if x.Command = k then some x else lookupCmd t k := by
  by_cases h : x.Command = k
  · rw [lookupCmd, List.find?_cons_of_pos _ (by simp [h]), if_pos h]
  · rw [lookupCmd, List.find?_cons_of_neg _ (by simp [h]), if_neg h]
    rfl

theorem lookupCmd_insertEntry (t : List HistoryEntry) (e : HistoryEntry) (k : Str) :
    lookupCmd (insertEntry t e) k = dedupStep k (lookupCmd t k) e := by
  induction t with
  | nil =>
    by_cases he : e.Command = k <;>
      simp [insertEntry, lookupCmd_cons, lookupCmd, dedupStep, he]
  | cons x t' ih =>
    by_cases hxe : x.Command = e.Command
    · simp only [insertEntry, if_pos hxe]
      by_cases hek : e.Command = k
      · have hxk : x.Command = k := hxe.trans hek
        by_cases htime : e.Time > x.Time
        · simp [lookupCmd_cons, dedupStep, htime, hek, hxk]
        · simp [lookupCmd_cons, dedupStep, htime, hek, hxk]
      · have hxk : ¬ x.Command = k := fun h => hek (hxe ▸ h)
        by_cases htime : e.Time > x.Time <;>
          simp [lookupCmd_cons, dedupStep, htime, hek, hxk]
    · simp only [insertEntry, if_neg hxe]
      by_cases hxk : x.Command = k
      · have hek : ¬ e.Command = k := fun h => hxe (hxk.trans h.symm)
        simp [lookupCmd_cons, dedupStep, hxk, hek]
      · simp [lookupCmd_cons, hxk, ih]

theorem lookupCmd_foldl (rs : List HistoryEntry) :
    ∀ (t : List HistoryEntry) (k : Str),
      lookupCmd (rs.foldl insertEntry t) k = rs.foldl (dedupStep k) (lookupCmd t k) := by
  induction rs with
  | nil => intro t k; rfl
  | cons x rs' ih =>
    intro t k
    simp only [List.foldl_cons]
    rw [ih (insertEntry t x) k, lookupCmd_insertEntry]

theorem keys_insertEntry (t : List HistoryEntry) (e : HistoryEntry) :
    ∀ c ∈ (insertEntry t e).map (·.Command),
      c ∈ t.map (·.Command) ∨ c = e.Command := by
  induction t with
  | nil => simp [insertEntry]
  | cons x t' ih =>
    intro c hc
    by_cases hxe : x.Command = e.Command
    · simp only [insertEntry, if_pos hxe] at hc
      by_cases htime : e.Time > x.Time
      · simp only [if_pos htime, List.map_cons, List.mem_cons] at hc
        rcases hc with hc | hc
        · exact Or.inr hc
        · exact Or.inl (by simp [hc])
      · simp only [if_neg htime, List.map_cons, List.mem_cons] at hc
        rcases hc with hc | hc
        · exact Or.inl (by simp [hc])
        · exact Or.inl (by simp [hc])
    · simp only [insertEntry, if_neg hxe, List.map_cons, List.mem_cons] at hc
      rcases hc with hc | hc
      · exact Or.inl (by simp [hc])
      · rcases ih c hc with h | h
        · exact Or.inl (by simp [h])
        · exact Or.inr h

theorem nodup_keys_insertEntry {t : List HistoryEntry} (e : HistoryEntry)
    (h : (t.map (·.Command)).Nodup) : ((insertEntry t e).map (·.Command)).Nodup := by
  induction t with
  | nil => simp [insertEntry]
  | cons x t' ih =>
    simp only [List.map_cons, List.nodup_cons] at h
    by_cases hxe : x.Command = e.Command
    · simp only [insertEntry, if_pos hxe]
      by_cases htime : e.Time > x.Time
      · simp only [if_pos htime, List.map_cons, List.nodup_cons]
        exact ⟨hxe ▸ h.1, h.2⟩
      · simp only [if_neg htime, List.map_cons, List.nodup_cons]
        exact h
    · simp only [insertEntry, if_neg hxe, List.map_cons, List.nodup_cons]
      refine ⟨?_, ih h.2⟩
      intro hmem
      rcases keys_insertEntry t' e x.Command hmem with hk | hk
      · exact h.1 hk
      · exact hxe hk

theorem nodup_keys_mergeAll (rs : List HistoryEntry) :
    ((mergeAll rs).map (·.Command)).Nodup := by
  have main : ∀ (l : List HistoryEntry) (t : List HistoryEntry),
      (t.map (·.Command)).Nodup → ((l.foldl insertEntry t).map (·.Command)).Nodup := by
    intro l
    induction l with
    | nil => intro t h; exact h
    | cons x l' ih =>
      intro t h
      exact ih (insertEntry t x) (nodup_keys_insertEntry x h)
  exact main rs [] (by simp)

theorem dedupStep_foldl_spec (k : Str) (rs : List HistoryEntry) :
    (rs.foldl (dedupStep k) none = none → ∀ x ∈ rs, x.Command ≠ k) ∧
    (∀ e, rs.foldl (dedupStep k) none = some e →
      e ∈ rs ∧ e.Command = k ∧
      (∀ x ∈ rs, x.Command = k → x.Time ≤ e.Time) ∧
      (rs.filter (fun x => x.Command == k && x.Time == e.Time)).head? = some e) := by
  induction rs using List.reverseRecOn with
  | nil => exact ⟨fun _ x hx => absurd hx (by simp), fun e he => by simp at he⟩
  | append_singleton rs y ih =>
    rw [List.foldl_append]
    by_cases hyk : y.Command = k
    · cases hF : rs.foldl (dedupStep k) none with
      | none =>
        have hnone := ih.1 hF
        have hfilt : rs.filter (fun x => x.Command == k && x.Time == y.Time) = [] := by
          rw [List.filter_eq_nil_iff]
          intro x hx
          simp [hnone x hx]
        constructor
        · intro habs
          simp [dedupStep, hyk] at habs
        · intro e he
          simp only [List.foldl_cons, List.foldl_nil, dedupStep, if_pos hyk] at he
          have hey : y = e := by simpa using he
          subst hey
          refine ⟨by simp, hyk, ?_, ?_⟩
          · intro x hx hxk
            rcases List.mem_append.mp hx with h | h
            · exact absurd hxk (hnone x h)
            · simp only [List.mem_singleton] at h
              simp [h]
          · rw [List.filter_append, hfilt]
            simp [hyk]
      | some a =>
        obtain ⟨hamem, hak, hamax, hafirst⟩ := ih.2 a hF
        have hstep : List.foldl (dedupStep k) (some a) [y] =
            if y.Time > a.Time then some y else some a := by
          simp [dedupStep, hyk]
        rw [hstep]
        constructor
        · intro habs
          by_cases ht : y.Time > a.Time <;> simp [ht] at habs
        · intro e he
          by_cases ht : y.Time > a.Time
          · rw [if_pos ht] at he
            have hey : y = e := by simpa using he
            subst hey
            refine ⟨by simp, hyk, ?_, ?_⟩
            · intro x hx hxk
              rcases List.mem_append.mp hx with h | h
              · exact le_trans (hamax x h hxk) (le_of_lt ht)
              · simp only [List.mem_singleton] at h
                simp [h]
            · have hfilt : rs.filter (fun x => x.Command == k && x.Time == y.Time) = [] := by
                rw [List.filter_eq_nil_iff]
                intro x hx
                simp only [Bool.and_eq_true, beq_iff_eq, not_and]
                intro hxk hxt
                have := hamax x hx hxk
                omega
              rw [List.filter_append, hfilt]
              simp [hyk]
          · rw [if_neg ht] at he
            have hea : a = e := by simpa using he
            subst hea
            refine ⟨List.mem_append.mpr (Or.inl hamem), hak, ?_, ?_⟩
            · intro x hx hxk
              rcases List.mem_append.mp hx with h | h
              · exact hamax x h hxk
              · simp only [List.mem_singleton] at h
                subst h
                omega
            · rw [List.filter_append, List.head?_append, hafirst]
              rfl
    · cases hF : rs.foldl (dedupStep k) none with
      | none =>
        constructor
        · intro _ x hx
          rcases List.mem_append.mp hx with h | h
          · exact ih.1 hF x h
          · simp only [List.mem_singleton] at h
            exact h ▸ hyk
        · intro e he
          simp [dedupStep, hyk] at he
      | some a =>
        obtain ⟨hamem, hak, hamax, hafirst⟩ := ih.2 a hF
        have hstep : List.foldl (dedupStep k) (some a) [y] = some a := by
          simp [dedupStep, hyk]
        rw [hstep]
        constructor
        · intro habs
          simp at habs
        · intro e he
          have hea : a = e := by simpa using he
          subst hea
          refine ⟨List.mem_append.mpr (Or.inl hamem), hak, ?_, ?_⟩
          · intro x hx hxk
            rcases List.mem_append.mp hx with h | h
            · exact hamax x h hxk
            · simp only [List.mem_singleton] at h
              exact absurd (h ▸ hxk) hyk
          · rw [List.filter_append, List.head?_append, hafirst]
            rfl

theorem insertEntry_not_mem {t : List HistoryEntry} {e : HistoryEntry}
    (h : e.Command ∉ t.map (·.Command)) : insertEntry t e = t ++ [e] := by
  induction t with
  | nil => rfl
  | cons x t' ih =>
    simp only [List.map_cons, List.mem_cons, not_or] at h
    have hxe : ¬ x.Command = e.Command := fun hc => h.1 (hc.symm)
    simp only [insertEntry, if_neg hxe, List.cons_append]
    rw [ih h.2]

theorem foldl_insertEntry_nodup :
    ∀ (es t : List HistoryEntry),
      ((t.map (·.Command) ++ es.map (·.Command)).Nodup) →
      es.foldl insertEntry t = t ++ es := by
  intro es
  induction es with
  | nil => intro t _; simp
  | cons e es' ih =>
    intro t h
    simp only [List.map_cons] at h
    have hnotin : e.Command ∉ t.map (·.Command) := by
      intro hmem
      have hd : List.Disjoint (t.map (·.Command)) (e.Command :: es'.map (·.Command)) :=
        List.disjoint_of_nodup_append h
      exact hd hmem (List.mem_cons_self _ _)
    simp only [List.foldl_cons, insertEntry_not_mem hnotin]
    have h2 : (((t ++ [e]).map (·.Command)) ++ es'.map (·.Command)).Nodup := by
      simp only [List.map_append, List.map_cons, List.map_nil, List.append_assoc]
      simpa using h
    rw [ih (t ++ [e]) h2, List.append_assoc]
    rfl

/-! ## Sorting lemmas -/

theorem insertByTime_perm (e : HistoryEntry) (l : List HistoryEntry) :
    (insertByTime e l).Perm (e :: l) := by
  induction l with
  | nil => exact List.Perm.refl _
  | cons x t ih =>
    by_cases h : e.Time < x.Time
    · simp only [insertByTime, if_pos h]
      exact List.Perm.refl _
    · simp only [insertByTime, if_neg h]
      exact (ih.cons x).trans (List.Perm.swap e x t)

theorem sortByTime_perm (l : List HistoryEntry) : (sortByTime l).Perm l := by
  induction l with
  | nil => exact List.Perm.refl _
  | cons x t ih =>
    exact (insertByTime_perm x (sortByTime t)).trans (ih.cons x)

theorem mem_insertByTime {e y : HistoryEntry} {l : List HistoryEntry}
    (h : y ∈ insertByTime e l) : y = e ∨ y ∈ l := by
  have := (insertByTime_perm e l).mem_iff.mp h
  simpa using this

theorem insertByTime_pairwise {e : HistoryEntry} {l : List HistoryEntry}
    (h : l.Pairwise (fun a b => a.Time ≤ b.Time)) :
    (insertByTime e l).Pairwise (fun a b => a.Time ≤ b.Time) := by
  induction l with
  | nil => simp [insertByTime]
  | cons x t ih =>
    rcases List.pairwise_cons.mp h with ⟨hx, ht⟩
    by_cases hlt : e.Time < x.Time
    · simp only [insertByTime, if_pos hlt]
      refine List.pairwise_cons.mpr ⟨?_, h⟩
      intro y hy
      rcases List.mem_cons.mp hy with hy | hy
      · subst hy
        omega
      · have := hx y hy
        omega
    · simp only [insertByTime, if_neg hlt]
      refine List.pairwise_cons.mpr ⟨?_, ih ht⟩
      intro y hy
      rcases mem_insertByTime hy with hy | hy
      · subst hy
        omega
      · exact hx y hy

theorem sortByTime_pairwise (l : List HistoryEntry) :
    (sortByTime l).Pairwise (fun a b => a.Time ≤ b.Time) := by
  induction l with
  | nil => simp [sortByTime]
  | cons x t ih => exact insertByTime_pairwise ih

theorem sortByTime_sorted_id {l : List HistoryEntry}
    (h : l.Pairwise (fun a b => a.Time < b.Time)) : sortByTime l = l := by
  induction l with
  | nil => rfl
  | cons x t ih =>
    rcases List.pairwise_cons.mp h with ⟨hx, ht⟩
    have hrw : sortByTime (x :: t) = insertByTime x (sortByTime t) := rfl
    rw [hrw, ih ht]
    cases t with
    | nil => rfl
    | cons y t' =>
      have hxy : x.Time < y.Time := hx y (List.mem_cons_self y t')
      simp [insertByTime, hxy]

theorem sorted_unique {l1 l2 : List HistoryEntry} (hperm : l1.Perm l2)
    (hdist : l1.Pairwise (fun a b => a.Time ≠ b.Time)) :
    sortByTime l1 = sortByTime l2 := by
  haveI : IsAntisymm HistoryEntry (fun a b => a.Time < b.Time) :=
    ⟨fun a b h1 h2 => absurd (lt_trans h1 h2) (lt_irrefl _)⟩
  have hsymm : ∀ {a b : HistoryEntry}, a.Time ≠ b.Time → b.Time ≠ a.Time :=
    fun h heq => h heq.symm
  have hp1 : (sortByTime l1).Perm l1 := sortByTime_perm l1
  have hp2 : (sortByTime l2).Perm l2 := sortByTime_perm l2
  have hd1 : (sortByTime l1).Pairwise (fun a b => a.Time ≠ b.Time) :=
    (hp1.pairwise_iff hsymm).mpr hdist
  have hd2 : (sortByTime l2).Pairwise (fun a b => a.Time ≠ b.Time) :=
    (hp2.pairwise_iff hsymm).mpr ((hperm.pairwise_iff hsymm).mp hdist)
  have hs1 : (sortByTime l1).Pairwise (fun a b => a.Time < b.Time) :=
    ((sortByTime_pairwise l1).and hd1).imp (fun h => lt_of_le_of_ne h.1 h.2)
  have hs2 : (sortByTime l2).Pairwise (fun a b => a.Time < b.Time) :=
    ((sortByTime_pairwise l2).and hd2).imp (fun h => lt_of_le_of_ne h.1 h.2)
  exact List.eq_of_perm_of_sorted (hp1.trans (hperm.trans hp2.symm)) hs1 hs2

/-! ## Claims -/

/-- Claim C1 — for every sequence of parsed records fed to the
deduplicator (in file-then-line order), the merge table maps each
command text to exactly one record (unique keys); the stored record for
a key is a record of the stream with that key whose `executed_at` is
the maximum seen so far; and since a new record replaces the stored one
only when its `executed_at` is strictly greater, the stored record is
the first-encountered one among those attaining the maximum, together
with its paired duration.  Quantifying over all streams `rs` covers
every intermediate point of the run. -/
theorem claim_C1_merge_table (rs : List HistoryEntry) (k : Str) :
    ((mergeAll rs).map (·.Command)).Nodup ∧
    (lookupCmd (mergeAll rs) k = none → ∀ x ∈ rs, x.Command ≠ k) ∧
    (∀ e, lookupCmd (mergeAll rs) k = some e →
      e ∈ rs ∧ e.Command = k ∧
      (∀ x ∈ rs, x.Command = k → x.Time ≤ e.Time) ∧
      (rs.filter (fun x => x.Command == k && x.Time == e.Time)).head? = some e) := by
  have hl : lookupCmd (mergeAll rs) k = rs.foldl (dedupStep k) none := by
    have h0 := lookupCmd_foldl rs [] k
    simpa [mergeAll, lookupCmd] using h0
  refine ⟨nodup_keys_mergeAll rs, ?_, ?_⟩
  · rw [hl]
    exact (dedupStep_foldl_spec k rs).1
  · rw [hl]
    exact (dedupStep_foldl_spec k rs).2

/-- Witness for C1: two records of the same command at one timestamp —
the first one (duration 1) is kept, with its duration. -/
theorem claim_C1_merge_table_witness :
    lookupCmd (mergeAll [dupA, dupB]) ['l', 's'] = some dupA ∧
    dupA ∈ [dupA, dupB] ∧ dupA.Command = ['l', 's'] ∧
    (∀ x ∈ [dupA, dupB], x.Command = ['l', 's'] → x.Time ≤ dupA.Time) ∧
    dupA.Duration = 1 := by
  have h := (claim_C1_merge_table [dupA, dupB] ['l', 's']).2.2 dupA (by decide)
  exact ⟨by decide, h.1, h.2.1, h.2.2.1, by decide⟩

/-- Claim C5 — the emitted stream is exactly the emission of the
time-sorted retained records, and the timestamp sequence along that
order is non-decreasing from first to last line. -/
theorem claim_C5_output_sorted (ph : Str) (entries : List HistoryEntry) :
    outputMergedCommands ph entries = ((sortByTime entries).map (emitLine ph)).flatten ∧
    ((sortByTime entries).map (·.Time)).Chain' (· ≤ ·) := by
  refine ⟨rfl, ?_⟩
  rw [List.chain'_iff_pairwise, List.pairwise_map]
  exact sortByTime_pairwise entries

/-- Claim C3, counterexample — a record whose timestamp has eleven
decimal digits is emitted by `fmt.Printf(":%11d:...")` with *no* space
between the field marker and the timestamp, so the line is not in the
canonical record form (marker, one space, timestamp). -/
theorem claim_C3_counterexample :
    emitLine phTok e11dig =
      [':', '1', '2', '3', '4', '5', '6', '7', '8', '9', '0', '1',
       ':', '0', ';', 'x', '\n'] ∧
    (emitLine phTok e11dig).take 2 ≠ [':', ' '] := by
  constructor <;> decide

/-- Claim C3, amended — every line written by the emitter for a record
whose timestamp value has exactly ten decimal digits (true of every
epoch second between 2001 and 2286) and a nonnegative duration is in
canonical form: marker, a single space, the ten timestamp digits, a
colon, the decimal duration, a semicolon, the restored command text and
a newline; with an eleven-or-more-digit timestamp the space is lost
(see the counterexample). -/
theorem claim_C3_amended (ph cmd : Str) (t d : Nat)
    (h1 : 10 ^ 9 ≤ t) (h2 : t < 10 ^ 10) :
    emitLine ph ⟨cmd, (t : Int), (d : Int)⟩ =
      ':' :: ' ' :: natToDigits t ++ ':' :: natToDigits d ++
        ';' :: replaceAll cmd ph ['\\', '\n'] ++ ['\n'] ∧
    10 ≤ (natToDigits t).length := by
  refine ⟨?_, by rw [natToDigits_length 9 t h1 h2]⟩
  have h := emitLine_eq ph cmd h1 h2 (d := d)
  simpa [recordBody, List.append_assoc] using h

/-- Witness for the amended C3 at a concrete record. -/
theorem claim_C3_amended_witness :
    emitLine phTok ⟨['l', 's'], (1600000000 : Nat), (2 : Nat)⟩ =
      ':' :: ' ' :: natToDigits 1600000000 ++ ':' :: natToDigits 2 ++
        ';' :: replaceAll ['l', 's'] phTok ['\\', '\n'] ++ ['\n'] ∧
    10 ≤ (natToDigits 1600000000).length :=
  claim_C3_amended phTok ['l', 's'] 1600000000 2 (by norm_num) (by norm_num)

/-- Claim C9, counterexample — two runs differing only in the order in
which the merge table is iterated (which Go randomizes per run) emit
different byte streams when two distinct commands share a timestamp:
the tie order follows map iteration order, so it is not fixed. -/
theorem claim_C9_counterexample :
    ([tieA, tieB] : List HistoryEntry).Perm [tieB, tieA] ∧
    outputMergedCommands phTok [tieA, tieB] ≠ outputMergedCommands phTok [tieB, tieA] :=
  ⟨List.Perm.swap tieB tieA [], by decide⟩

/-- Claim C9, amended — when all retained records carry pairwise
distinct timestamps, the emitted byte stream is independent of the
merge-table iteration order, so two runs on the same inputs emit
identical bytes; with a timestamp tie between distinct commands the
order is whatever map iteration produced (see the counterexample). -/
theorem claim_C9_amended (ph : Str) (es1 es2 : List HistoryEntry)
    (hperm : es1.Perm es2)
    (hdist : es1.Pairwise (fun a b => a.Time ≠ b.Time)) :
    outputMergedCommands ph es1 = outputMergedCommands ph es2 := by
  unfold outputMergedCommands
  rw [sorted_unique hperm hdist]

/-- Witness for the amended C9 at two concrete iteration orders. -/
theorem claim_C9_amended_witness :
    outputMergedCommands phTok [ordA, ordB] = outputMergedCommands phTok [ordB, ordA] :=
  claim_C9_amended phTok [ordA, ordB] [ordB, ordA]
    (List.Perm.swap ordB ordA []) (by decide)

/-! ## Normalizer and loop lemmas -/

theorem validLine_nil : validLine [] = false := rfl

theorem rmlLoop_id (ph : Str) (ls : List Str)
    (h : ∀ l ∈ ls, hasSuffix1 '\\' l = false) :
    rmlLoop ph ls = joinChar '\n' ls := by
  induction ls with
  | nil => rfl
  | cons x rest ih =>
    cases rest with
    | nil => rfl
    | cons next r =>
      have hx : hasSuffix1 '\\' x = false := h x (List.mem_cons_self _ _)
      have hr : ∀ l ∈ next :: r, hasSuffix1 '\\' l = false :=
        fun l hl => h l (List.mem_cons_of_mem x hl)
      simp only [rmlLoop, hx, Bool.false_eq_true, if_false, ih hr]
      rfl

theorem replaceMultilineCommands_id (ph content : Str)
    (h : ∀ l ∈ splitOnChar '\n' content, hasSuffix1 '\\' l = false) :
    replaceMultilineCommands ph content = content := by
  unfold replaceMultilineCommands
  rw [rmlLoop_id ph _ h, joinChar_splitOnChar]

theorem parseHistoryLine_command_suffix {l : Str} {e : HistoryEntry}
    (h : parseHistoryLine l = some e) : e.Command <:+ l := by
  unfold parseHistoryLine at h
  cases hsf : splitFirst ';' l with
  | none =>
    rw [hsf] at h
    exact absurd h (by simp)
  | some p =>
    obtain ⟨d, c⟩ := p
    rw [hsf] at h
    dsimp only [] at h
    have hc : e.Command = c := by
      repeat' split at h
      all_goals first
        | (simp only [Option.some.injEq] at h
           rw [← h])
        | exact absurd h (by simp)
    exact hc ▸ splitFirst_suffix hsf

theorem processLines_ok :
    ∀ (ls : List Str) (t0 : List HistoryEntry),
      (∀ l ∈ ls, validLine l = true → (parseHistoryLine l).isSome) →
      processLines ls t0 =
        some ((ls.filterMap
          (fun l => if validLine l then parseHistoryLine l else none)).foldl insertEntry t0) := by
  intro ls
  induction ls with
  | nil => intro t0 _; rfl
  | cons l ls' ih =>
    intro t0 h
    by_cases hv : validLine l = true
    · have hne : l.isEmpty = false := by
        cases l with
        | nil => exact absurd hv (by simp [validLine_nil])
        | cons c r => rfl
      cases he : parseHistoryLine l with
      | none =>
        have := h l (List.mem_cons_self _ _) hv
        rw [he] at this
        exact absurd this (by simp)
      | some e =>
        simp only [processLines, hne, hv, Bool.not_true, Bool.or_self, Bool.false_eq_true,
          if_false, he]
        rw [ih (insertEntry t0 e) (fun x hx => h x (List.mem_cons_of_mem l hx))]
        simp [List.filterMap_cons, hv, he]
    · have hskip : processLines (l :: ls') t0 = processLines ls' t0 := by
        simp [processLines, hv]
      rw [hskip, ih t0 (fun x hx => h x (List.mem_cons_of_mem l hx))]
      have : (if validLine l then parseHistoryLine l else none) = none := by
        simp [hv]
      simp [List.filterMap_cons, this]

/-- Claim C2, counterexample — the first physical line ends in a single
trailing backslash and the next line `:1234567890` does *not* start
with marker + ten-digit timestamp + colon (there is no colon after the
digits), so by the claim the lines must be joined; but the code tests
the unanchored pattern `:\s*\d{10,}` — which this next line matches —
and keeps the backslash and the line break instead. -/
theorem claim_C2_counterexample :
    hasSuffix1 '\\' ['x', '\\'] = true ∧
    specRecordStart (':' :: ['1', '2', '3', '4', '5', '6', '7', '8', '9', '0']) = false ∧
    replaceMultilineCommands phTok
        (['x', '\\'] ++ '\n' :: ':' :: ['1', '2', '3', '4', '5', '6', '7', '8', '9', '0']) =
      ['x', '\\'] ++ '\n' :: ':' :: ['1', '2', '3', '4', '5', '6', '7', '8', '9', '0'] ∧
    replaceMultilineCommands phTok
        (['x', '\\'] ++ '\n' :: ':' :: ['1', '2', '3', '4', '5', '6', '7', '8', '9', '0']) ≠
      ['x'] ++ phTok ++ (':' :: ['1', '2', '3', '4', '5', '6', '7', '8', '9', '0']) := by
  refine ⟨by decide, by decide, by decide, by decide⟩

/-- Claim C2, amended — on a two-physical-line content the normalizer
joins the first line to the second iff the first line ends in a
trailing backslash *and* the second line does not contain, anywhere in
the line, a colon followed by optional whitespace and at least ten
consecutive digits (the unanchored pattern `:\s*\d{10,}`; no trailing
colon is required and the match need not start the line).  A join
removes the backslash, substitutes the placeholder and inserts no
newline; otherwise the backslash and the line break are both kept. -/
theorem claim_C2_amended (a b ph : Str) (ha : '\n' ∉ a) (hb : '\n' ∉ b) :
    replaceMultilineCommands ph (a ++ '\n' :: b) =
      if hasSuffix1 '\\' a && !timestampMatch b then a.dropLast ++ ph ++ b
      else a ++ '\n' :: b := by
  unfold replaceMultilineCommands
  rw [splitOnChar_append_cons b ha, splitOnChar_not_mem hb]
  by_cases hsuf : hasSuffix1 '\\' a
  · by_cases htm : timestampMatch b
    · simp [rmlLoop, hsuf, htm]
    · simp [rmlLoop, hsuf, htm, trimSuffix1]
  · simp [rmlLoop, hsuf]

/-- Witness for the amended C2: a true continuation is joined with the
placeholder substituted and no newline. -/
theorem claim_C2_amended_witness :
    replaceMultilineCommands phTok (['x', '\\'] ++ '\n' :: ['y']) =
      ['x'] ++ phTok ++ ['y'] := by
  rw [claim_C2_amended ['x', '\\'] ['y'] phTok (by decide) (by decide)]
  decide

/-- Claim C4, counterexample — a line that satisfies the record grammar
`^: \d{10,}:\d+;` but whose duration does not fit in a signed 64-bit
integer makes `strconv.Atoi` fail, and `processHistoryFile` turns that
into a fatal error (`log.Fatalf`): the run aborts with no output
instead of skipping or keeping the line. -/
theorem claim_C4_counterexample :
    validLine (": 1234567890:99999999999999999999;x".toList) = true ∧
    processHistoryFile phTok cexC4 [] = none ∧
    pipeline phTok [cexC4] = none := by
  refine ⟨by decide, by decide, by decide⟩

/-- Claim C4, amended — lenient skipping holds as long as the line
scanner succeeds (no physical line reaches the scanner's 64 KiB token
limit, which would make `bufio.Scanner` stop with `ErrTooLong` and
abort the run with no output) and every line matching the record
grammar also parses, i.e. its timestamp and duration values fit in a
signed 64-bit integer: then empty lines and lines failing the grammar
are silently skipped, processing continues, and the resulting table is
exactly the fold of the records of the well-formed lines; a
grammar-matching line with an over-large numeric field instead aborts
the whole run (see the counterexample). -/
theorem claim_C4_amended (ph content c : Str) (t0 : List HistoryEntry)
    (hread : readFileContent content = some c)
    (h : ∀ l ∈ splitOnChar '\n' (replaceMultilineCommands ph c),
      validLine l = true → (parseHistoryLine l).isSome) :
    processHistoryFile ph content t0 =
      some (((splitOnChar '\n' (replaceMultilineCommands ph c)).filterMap
        (fun l => if validLine l then parseHistoryLine l else none)).foldl insertEntry t0) := by
  unfold processHistoryFile
  rw [hread]
  exact processLines_ok _ t0 h

/-- Witness for the amended C4: a malformed line is skipped and the
well-formed line's record is kept. -/
theorem claim_C4_amended_witness :
    processHistoryFile phTok cexC4good [] = some [⟨['o', 'k'], 1600000000, 0⟩] := by
  rw [claim_C4_amended phTok cexC4good cexC4good [] (by decide) (by decide)]
  decide

/-- Claim C10, counterexample — a continuation-free content (no line
ends in a backslash) whose single record's command text happens to be
the placeholder token: the normalizer is the identity on it, yet the
parsed command contains the placeholder, and the emitted record gains
a spurious continuation sequence that was never in the input. -/
theorem claim_C10_counterexample :
    (∀ l ∈ splitOnChar '\n' cexC10, hasSuffix1 '\\' l = false) ∧
    parseHistoryLine (": 1600000000:0;".toList ++ phTok) =
      some ⟨phTok, 1600000000, 0⟩ ∧
    (phTok <:+: (⟨phTok, 1600000000, 0⟩ : HistoryEntry).Command) ∧
    pipeline phTok [cexC10] = some (": 1600000000:0;\\\n\n".toList) ∧
    (['\\', '\n'] <:+: ": 1600000000:0;\\\n\n".toList) ∧
    ¬ (['\\', '\n'] <:+: cexC10) := by
  refine ⟨by decide, by decide, by decide, by decide, by decide, by decide⟩

/-- Claim C10, amended — the normalizer is the identity on every
content in which no physical line ends with a trailing backslash; and
if additionally the placeholder token does not occur anywhere in the
content, then no command parsed from the content's lines contains the
placeholder (so emission cannot introduce a spurious continuation).
When the content itself contains the token — which the time-derived
`TO_BE_REMOVED_<unix-time>` makes unlikely but not impossible — the
claim fails (see the counterexample). -/
theorem claim_C10_amended (ph content : Str)
    (hnb : ∀ l ∈ splitOnChar '\n' content, hasSuffix1 '\\' l = false) :
    replaceMultilineCommands ph content = content ∧
    (¬ ph <:+: content →
      ∀ l ∈ splitOnChar '\n' content, ∀ e, parseHistoryLine l = some e →
        ¬ ph <:+: e.Command) := by
  refine ⟨replaceMultilineCommands_id ph content hnb, ?_⟩
  intro hph l hl e he hcmd
  exact hph (hcmd.trans ((parseHistoryLine_command_suffix he).isInfix.trans
    (infix_of_mem_splitOnChar hl)))

/-- Witness for the amended C10 on a concrete continuation-free file. -/
theorem claim_C10_amended_witness :
    replaceMultilineCommands phTok (": 1600000000:0;ls -la".toList) =
      ": 1600000000:0;ls -la".toList :=
  (claim_C10_amended phTok (": 1600000000:0;ls -la".toList) (by decide)).1

/-! ## UTF-8 lemmas -/

theorem acceptLo_bounds (b0 : Nat) : 0x80 ≤ acceptLo b0 ∧ acceptLo b0 ≤ 0xA0 := by
  unfold acceptLo
  repeat' split
  all_goals omega

theorem acceptHi_bounds (b0 : Nat) : 0x8F ≤ acceptHi b0 ∧ acceptHi b0 ≤ 0xBF := by
  unfold acceptHi
  repeat' split
  all_goals omega

theorem accept_2byte {b0 : Nat} (h1 : 0xC2 ≤ b0) (h2 : b0 ≤ 0xDF) :
    acceptLo b0 = 0x80 ∧ acceptHi b0 = 0xBF := by
  unfold acceptLo acceptHi
  rw [if_neg (by omega), if_neg (by omega), if_neg (by omega), if_neg (by omega)]
  exact ⟨rfl, rfl⟩

theorem decodeRune_cons (b0 : Nat) (rest : Bytes) :
    decodeRune (b0 :: rest) = decodeRuneAux b0 rest := rfl

theorem decodeRune_size_pos {s : Bytes} (h : s ≠ []) : 1 ≤ (decodeRune s).2 := by
  rcases s with _ | ⟨b0, rest⟩
  · exact absurd rfl h
  · rw [decodeRune_cons]
    unfold decodeRuneAux
    repeat' split
    all_goals simp

theorem decodeRune_fst_spec (s : Bytes) (h : s ≠ []) :
    ((decodeRune s).1 = 0xFFFD ∧ (decodeRune s).2 = 1) ∨ scalarOK (decodeRune s).1 := by
  rcases s with _ | ⟨b0, rest⟩
  · exact absurd rfl h
  · rw [decodeRune_cons]
    unfold decodeRuneAux scalarOK
    split
    · rename_i h1
      right
      dsimp only
      omega
    · split
      · rename_i h1 h2
        split
        · rename_i b1 tl
          split
          · rename_i h3
            right
            dsimp only
            have ha := accept_2byte h2.1 h2.2
            rw [ha.1, ha.2] at h3
            omega
          · left
            exact ⟨rfl, rfl⟩
        · left
          exact ⟨rfl, rfl⟩
      · split
        · rename_i h1 h2 h3
          split
          · rename_i b1 b2 tl
            split
            · rename_i h4
              right
              dsimp only
              have hlo := acceptLo_bounds b0
              have hhi := acceptHi_bounds b0
              by_cases hED : b0 = 0xED
              · have he : acceptHi b0 = 0x9F := by
                  unfold acceptHi
                  rw [if_pos hED]
                rw [he] at h4
                subst hED
                omega
              · have he : acceptHi b0 = 0xBF := by
                  unfold acceptHi
                  rw [if_neg hED, if_neg (by omega)]
                rw [he] at h4
                omega
            · left
              exact ⟨rfl, rfl⟩
          · left
            exact ⟨rfl, rfl⟩
        · split
          · rename_i h1 h2 h3 h4
            split
            · rename_i b1 b2 b3 tl
              split
              · rename_i h5
                right
                dsimp only
                have hlo := acceptLo_bounds b0
                have hhi := acceptHi_bounds b0
                by_cases hF4 : b0 = 0xF4
                · have he : acceptHi b0 = 0x8F := by
                    unfold acceptHi
                    rw [if_neg (by omega), if_pos hF4]
                  rw [he] at h5
                  subst hF4
                  omega
                · have he : acceptHi b0 = 0xBF := by
                    unfold acceptHi
                    rw [if_neg (by omega), if_neg hF4]
                  rw [he] at h5
                  by_cases hF0 : b0 = 0xF0
                  · have hl : acceptLo b0 = 0x90 := by
                      unfold acceptLo
                      rw [if_neg (by omega), if_pos hF0]
                    rw [hl] at h5
                    subst hF0
                    omega
                  · omega
              · left
                exact ⟨rfl, rfl⟩
            · left
              exact ⟨rfl, rfl⟩
          · left
            exact ⟨rfl, rfl⟩

theorem decodeRune_encodeRune {r : Nat} (h : scalarOK r) (t : Bytes) :
    decodeRune (encodeRune r ++ t) = (r, (encodeRune r).length) := by
  unfold scalarOK at h
  by_cases h1 : r < 0x80
  · rw [encodeRune, if_pos h1]
    show decodeRune (r :: t) = (r, 1)
    rw [decodeRune_cons]
    unfold decodeRuneAux
    rw [if_pos h1]
  · by_cases h2 : r < 0x800
    · rw [encodeRune, if_neg h1, if_pos h2]
      show decodeRune ((0xC0 + r / 64) :: (0x80 + r % 64) :: t) = (r, 2)
      rw [decodeRune_cons]
      unfold decodeRuneAux
      rw [if_neg (by omega), if_pos (by omega)]
      dsimp only
      have hacc := @accept_2byte (0xC0 + r / 64) (by omega) (by omega)
      rw [hacc.1, hacc.2, if_pos (by omega)]
      have hval : (0xC0 + r / 64 - 0xC0) * 64 + (0x80 + r % 64 - 0x80) = r := by omega
      rw [hval]
    · by_cases h3 : r < 0x10000
      · rw [encodeRune, if_neg h1, if_neg h2, if_pos h3]
        show decodeRune
          ((0xE0 + r / 4096) :: (0x80 + r / 64 % 64) :: (0x80 + r % 64) :: t) = (r, 3)
        rw [decodeRune_cons]
        unfold decodeRuneAux
        rw [if_neg (by omega), if_neg (by omega), if_pos (by omega)]
        dsimp only
        have hlo : acceptLo (0xE0 + r / 4096) ≤ 0x80 + r / 64 % 64 := by
          unfold acceptLo
          by_cases hE0 : (0xE0 + r / 4096) = 0xE0
          · rw [if_pos hE0]
            omega
          · rw [if_neg hE0, if_neg (by omega)]
            omega
        have hhi : 0x80 + r / 64 % 64 ≤ acceptHi (0xE0 + r / 4096) := by
          unfold acceptHi
          by_cases hED : (0xE0 + r / 4096) = 0xED
          · rw [if_pos hED]
            omega
          · rw [if_neg hED, if_neg (by omega)]
            omega
        rw [if_pos ⟨⟨hlo, hhi⟩, by omega, by omega⟩]
        have hval : (0xE0 + r / 4096 - 0xE0) * 4096 + (0x80 + r / 64 % 64 - 0x80) * 64 +
            (0x80 + r % 64 - 0x80) = r := by omega
        rw [hval]
      · rw [encodeRune, if_neg h1, if_neg h2, if_neg h3]
        show decodeRune
          ((0xF0 + r / 262144) :: (0x80 + r / 4096 % 64) :: (0x80 + r / 64 % 64) ::
            (0x80 + r % 64) :: t) = (r, 4)
        rw [decodeRune_cons]
        unfold decodeRuneAux
        rw [if_neg (by omega), if_neg (by omega), if_neg (by omega), if_pos (by omega)]
        dsimp only
        have hlo : acceptLo (0xF0 + r / 262144) ≤ 0x80 + r / 4096 % 64 := by
          unfold acceptLo
          rw [if_neg (by omega)]
          by_cases hF0 : (0xF0 + r / 262144) = 0xF0
          · rw [if_pos hF0]
            omega
          · rw [if_neg hF0]
            omega
        have hhi : 0x80 + r / 4096 % 64 ≤ acceptHi (0xF0 + r / 262144) := by
          unfold acceptHi
          rw [if_neg (by omega)]
          by_cases hF4 : (0xF0 + r / 262144) = 0xF4
          · rw [if_pos hF4]
            omega
          · rw [if_neg hF4]
            omega
        rw [if_pos ⟨⟨hlo, hhi⟩, ⟨by omega, by omega⟩, by omega, by omega⟩]
        have hval : (0xF0 + r / 262144 - 0xF0) * 262144 + (0x80 + r / 4096 % 64 - 0x80) * 4096 +
            (0x80 + r / 64 % 64 - 0x80) * 64 + (0x80 + r % 64 - 0x80) = r := by omega
        rw [hval]

theorem encodeRune_ne_nil (r : Nat) : encodeRune r ≠ [] := by
  unfold encodeRune
  repeat' split
  all_goals simp

theorem utf8ValidCore_congr :
    ∀ (n : Nat) (s : Bytes) (f g : Nat), s.length ≤ n → s.length ≤ f → s.length ≤ g →
      utf8ValidCore f s = utf8ValidCore g s := by
  intro n
  induction n with
  | zero =>
    intro s f g hn _ _
    have hs : s = [] := List.eq_nil_of_length_eq_zero (by omega)
    subst hs
    cases f <;> cases g <;> rfl
  | succ n ih =>
    intro s f g hn hf hg
    cases s with
    | nil => cases f <;> cases g <;> rfl
    | cons c rest =>
      have hlen : (c :: rest).length = rest.length + 1 := rfl
      match f, g with
      | f' + 1, g' + 1 =>
        show utf8ValidCore (f' + 1) (c :: rest) = utf8ValidCore (g' + 1) (c :: rest)
        simp only [utf8ValidCore]
        by_cases herr : (decodeRune (c :: rest)).1 = 0xFFFD ∧ (decodeRune (c :: rest)).2 = 1
        · rw [if_pos herr, if_pos herr]
        · rw [if_neg herr, if_neg herr]
          have hpos : 1 ≤ (decodeRune (c :: rest)).2 := decodeRune_size_pos (by simp)
          have hlen2 : (c :: rest).length = rest.length + 1 := rfl
          apply ih
          all_goals rw [List.length_drop]
          all_goals omega

theorem sanitizeCore_congr :
    ∀ (n : Nat) (s : Bytes) (f g : Nat), s.length ≤ n → s.length ≤ f → s.length ≤ g →
      sanitizeCore f s = sanitizeCore g s := by
  intro n
  induction n with
  | zero =>
    intro s f g hn _ _
    have hs : s = [] := List.eq_nil_of_length_eq_zero (by omega)
    subst hs
    cases f <;> cases g <;> rfl
  | succ n ih =>
    intro s f g hn hf hg
    cases s with
    | nil => cases f <;> cases g <;> rfl
    | cons c rest =>
      match f, g with
      | f' + 1, g' + 1 =>
        show sanitizeCore (f' + 1) (c :: rest) = sanitizeCore (g' + 1) (c :: rest)
        simp only [sanitizeCore]
        have hpos : 1 ≤ (decodeRune (c :: rest)).2 := decodeRune_size_pos (by simp)
        have hlen2 : (c :: rest).length = rest.length + 1 := rfl
        have hrec : sanitizeCore f' ((c :: rest).drop (decodeRune (c :: rest)).2) =
            sanitizeCore g' ((c :: rest).drop (decodeRune (c :: rest)).2) := by
          apply ih
          all_goals rw [List.length_drop]
          all_goals omega
        rw [hrec]

theorem runeStepsCore_congr :
    ∀ (n : Nat) (s : Bytes) (f g : Nat), s.length ≤ n → s.length ≤ f → s.length ≤ g →
      runeStepsCore f s = runeStepsCore g s := by
  intro n
  induction n with
  | zero =>
    intro s f g hn _ _
    have hs : s = [] := List.eq_nil_of_length_eq_zero (by omega)
    subst hs
    cases f <;> cases g <;> rfl
  | succ n ih =>
    intro s f g hn hf hg
    cases s with
    | nil => cases f <;> cases g <;> rfl
    | cons c rest =>
      match f, g with
      | f' + 1, g' + 1 =>
        show runeStepsCore (f' + 1) (c :: rest) = runeStepsCore (g' + 1) (c :: rest)
        simp only [runeStepsCore]
        have hpos : 1 ≤ (decodeRune (c :: rest)).2 := decodeRune_size_pos (by simp)
        have hlen2 : (c :: rest).length = rest.length + 1 := rfl
        have hrec : runeStepsCore f' ((c :: rest).drop (decodeRune (c :: rest)).2) =
            runeStepsCore g' ((c :: rest).drop (decodeRune (c :: rest)).2) := by
          apply ih
          all_goals rw [List.length_drop]
          all_goals omega
        rw [hrec]

theorem utf8Valid_step {s : Bytes} (h : s ≠ []) :
    utf8Valid s =
      if (decodeRune s).1 = 0xFFFD ∧ (decodeRune s).2 = 1 then false
      else utf8Valid (s.drop (decodeRune s).2) := by
  rcases s with _ | ⟨c, rest⟩
  · exact absurd rfl h
  · show utf8ValidCore (rest.length + 1) (c :: rest) = _
    simp only [utf8ValidCore]
    by_cases herr : (decodeRune (c :: rest)).1 = 0xFFFD ∧ (decodeRune (c :: rest)).2 = 1
    · rw [if_pos herr, if_pos herr]
    · rw [if_neg herr, if_neg herr]
      have hpos : 1 ≤ (decodeRune (c :: rest)).2 := decodeRune_size_pos (by simp)
      have hlen2 : (c :: rest).length = rest.length + 1 := rfl
      apply utf8ValidCore_congr (rest.length + 1)
      all_goals rw [List.length_drop]
      all_goals omega

theorem sanitizeAll_step {s : Bytes} (h : s ≠ []) :
    sanitizeAll s =
      (if (decodeRune s).1 = 0xFFFD ∧ (decodeRune s).2 = 1 then [35]
       else encodeRune (decodeRune s).1) ++
        sanitizeAll (s.drop (decodeRune s).2) := by
  rcases s with _ | ⟨c, rest⟩
  · exact absurd rfl h
  · show sanitizeCore (rest.length + 1) (c :: rest) = _
    simp only [sanitizeCore]
    have hpos : 1 ≤ (decodeRune (c :: rest)).2 := decodeRune_size_pos (by simp)
    have hlen2 : (c :: rest).length = rest.length + 1 := rfl
    have hrec : sanitizeCore rest.length ((c :: rest).drop (decodeRune (c :: rest)).2) =
        sanitizeAll ((c :: rest).drop (decodeRune (c :: rest)).2) := by
      apply sanitizeCore_congr (rest.length + 1)
      all_goals rw [List.length_drop]
      all_goals omega
    rw [hrec]

theorem runeSteps_step {s : Bytes} (h : s ≠ []) :
    runeSteps s =
      ((decodeRune s).1, decide ((decodeRune s).1 = 0xFFFD ∧ (decodeRune s).2 = 1)) ::
        runeSteps (s.drop (decodeRune s).2) := by
  rcases s with _ | ⟨c, rest⟩
  · exact absurd rfl h
  · show runeStepsCore (rest.length + 1) (c :: rest) = _
    simp only [runeStepsCore]
    have hpos : 1 ≤ (decodeRune (c :: rest)).2 := decodeRune_size_pos (by simp)
    have hlen2 : (c :: rest).length = rest.length + 1 := rfl
    have hrec : runeStepsCore rest.length ((c :: rest).drop (decodeRune (c :: rest)).2) =
        runeSteps ((c :: rest).drop (decodeRune (c :: rest)).2) := by
      apply runeStepsCore_congr (rest.length + 1)
      all_goals rw [List.length_drop]
      all_goals omega
    rw [hrec]

theorem runeSteps_sanitizeAll :
    ∀ (n : Nat) (s : Bytes), s.length ≤ n →
      runeSteps (sanitizeAll s) =
        (runeSteps s).map (fun p => (if p.2 then 35 else p.1, false)) := by
  intro n
  induction n with
  | zero =>
    intro s hn
    have hs : s = [] := List.eq_nil_of_length_eq_zero (by omega)
    subst hs
    rfl
  | succ n ih =>
    intro s hn
    rcases hs : s with _ | ⟨c, rest⟩
    · rfl
    · rw [← hs]
      have hne : s ≠ [] := by rw [hs]; exact List.cons_ne_nil c rest
      have hpos : 1 ≤ (decodeRune s).2 := decodeRune_size_pos hne
      have hdroplen : (s.drop (decodeRune s).2).length ≤ n := by
        rw [List.length_drop]
        omega
      rw [sanitizeAll_step hne, runeSteps_step hne]
      by_cases herr : (decodeRune s).1 = 0xFFFD ∧ (decodeRune s).2 = 1
      · rw [if_pos herr]
        have h35 : decodeRune (35 :: sanitizeAll (s.drop (decodeRune s).2)) = (35, 1) := by
          rw [decodeRune_cons]
          unfold decodeRuneAux
          rw [if_pos (by omega)]
        have hsteps := runeSteps_step (s := 35 :: sanitizeAll (s.drop (decodeRune s).2)) (by simp)
        rw [h35] at hsteps
        simp only [List.drop_succ_cons, List.drop_zero] at hsteps
        rw [show ([35] ++ sanitizeAll (s.drop (decodeRune s).2) : Bytes) =
          35 :: sanitizeAll (s.drop (decodeRune s).2) from rfl]
        rw [hsteps, ih _ hdroplen]
        simp [herr]
      · rw [if_neg herr]
        have hsc : scalarOK (decodeRune s).1 := by
          rcases decodeRune_fst_spec s hne with h | h
          · exact absurd h herr
          · exact h
        have hdec := decodeRune_encodeRune hsc (sanitizeAll (s.drop (decodeRune s).2))
        have hne2 : encodeRune (decodeRune s).1 ++ sanitizeAll (s.drop (decodeRune s).2) ≠ [] := by
          intro habs
          exact encodeRune_ne_nil _ (List.append_eq_nil.mp habs).1
        have hsteps := runeSteps_step hne2
        rw [hdec] at hsteps
        simp only at hsteps
        have hdroped : (encodeRune (decodeRune s).1 ++
            sanitizeAll (s.drop (decodeRune s).2)).drop (encodeRune (decodeRune s).1).length =
            sanitizeAll (s.drop (decodeRune s).2) := List.drop_left _ _
        rw [hdroped] at hsteps
        have hflag : decide ((decodeRune s).1 = 0xFFFD ∧
            (encodeRune (decodeRune s).1).length = 1) = false := by
          rw [decide_eq_false_iff_not]
          rintro ⟨ha, hb⟩
          rw [ha] at hb
          exact absurd hb (by decide)
        rw [hflag] at hsteps
        rw [hsteps, ih _ hdroplen]
        simp [herr]

theorem utf8Valid_runeSteps :
    ∀ (n : Nat) (s : Bytes), s.length ≤ n →
      utf8Valid s = (runeSteps s).all (fun p => !p.2) := by
  intro n
  induction n with
  | zero =>
    intro s hn
    have hs : s = [] := List.eq_nil_of_length_eq_zero (by omega)
    subst hs
    rfl
  | succ n ih =>
    intro s hn
    rcases hs : s with _ | ⟨c, rest⟩
    · rfl
    · rw [← hs]
      have hne : s ≠ [] := by rw [hs]; exact List.cons_ne_nil c rest
      have hpos : 1 ≤ (decodeRune s).2 := decodeRune_size_pos hne
      have hdroplen : (s.drop (decodeRune s).2).length ≤ n := by
        rw [List.length_drop]
        omega
      rw [utf8Valid_step hne, runeSteps_step hne]
      by_cases herr : (decodeRune s).1 = 0xFFFD ∧ (decodeRune s).2 = 1
      · rw [if_pos herr]
        simp [herr]
      · rw [if_neg herr]
        rw [ih _ hdroplen]
        simp [herr]

theorem map_fix_of_all_ok {l : List (Nat × Bool)} (h : l.all (fun p => !p.2) = true) :
    l.map (fun p => (if p.2 then 35 else p.1, false)) = l := by
  induction l with
  | nil => rfl
  | cons p rest ih =>
    simp only [List.all_cons, Bool.and_eq_true, Bool.not_eq_eq_eq_not, Bool.not_true] at h
    obtain ⟨hp, hrest⟩ := h
    simp only [List.map_cons, hp, Bool.false_eq_true, if_false]
    rw [ih (by simpa using hrest)]
    cases p with
    | mk a b =>
      simp only at hp
      rw [hp]

/-- Claim C8 — for every input byte string, the sanitizer returns valid
UTF-8 (no invalid encoding remains); its rune sequence is the input's
decode-step sequence with each invalid byte unit replaced, one unit at
a time, by the marker `'#'` (byte 35) and no error flags left; and it
returns the input unchanged whenever the input is already valid.  No
error is ever raised (the function is total). -/
theorem claim_C8_sanitizer (s : Bytes) :
    utf8Valid (invalidUTF8 s) = true ∧
    runeSteps (invalidUTF8 s) =
      (runeSteps s).map (fun p => (if p.2 then 35 else p.1, false)) ∧
    (utf8Valid s = true → invalidUTF8 s = s) := by
  have hmain : runeSteps (invalidUTF8 s) =
      (runeSteps s).map (fun p => (if p.2 then 35 else p.1, false)) := by
    unfold invalidUTF8
    by_cases hv : utf8Valid s
    · rw [if_pos hv]
      rw [map_fix_of_all_ok ((utf8Valid_runeSteps s.length s le_rfl) ▸ hv)]
    · rw [if_neg hv]
      exact runeSteps_sanitizeAll s.length s le_rfl
  refine ⟨?_, hmain, fun hv => by unfold invalidUTF8; rw [if_pos hv]⟩
  rw [utf8Valid_runeSteps (invalidUTF8 s).length _ le_rfl, hmain, List.all_map]
  simp

/-- Witness for C8: the invalid byte 0xFF is replaced by `'#'` (35),
the valid bytes survive, the output is valid, and a fully valid input
is returned unchanged. -/
theorem claim_C8_sanitizer_witness :
    utf8Valid (invalidUTF8 [97, 255, 98]) = true ∧
    invalidUTF8 [97, 255, 98] = [97, 35, 98] ∧
    invalidUTF8 [97, 195, 169] = [97, 195, 169] := by
  refine ⟨(claim_C8_sanitizer [97, 255, 98]).1, by decide, ?_⟩
  exact (claim_C8_sanitizer [97, 195, 169]).2.2 (by decide)

/-! ## `strings.ReplaceAll` lemmas -/

theorem replaceAllCore_congr (pat rep : Str) :
    ∀ (n : Nat) (s : Str) (f g : Nat), s.length ≤ n → s.length ≤ f → s.length ≤ g →
      replaceAllCore pat rep f s = replaceAllCore pat rep g s := by
  intro n
  induction n with
  | zero =>
    intro s f g hn _ _
    have hs : s = [] := List.eq_nil_of_length_eq_zero (by omega)
    subst hs
    cases f <;> cases g <;> rfl
  | succ n ih =>
    intro s f g hn hf hg
    cases s with
    | nil => cases f <;> cases g <;> rfl
    | cons c rest =>
      have hlen : (c :: rest).length = rest.length + 1 := rfl
      match f, g with
      | f' + 1, g' + 1 =>
        show replaceAllCore pat rep (f' + 1) (c :: rest) =
          replaceAllCore pat rep (g' + 1) (c :: rest)
        simp only [replaceAllCore]
        by_cases hp : pat.isPrefixOf (c :: rest)
        · rw [if_pos hp, if_pos hp]
          have : replaceAllCore pat rep f' (rest.drop (pat.length - 1)) =
              replaceAllCore pat rep g' (rest.drop (pat.length - 1)) := by
            apply ih
            all_goals rw [List.length_drop]
            all_goals omega
          rw [this]
        · rw [if_neg hp, if_neg hp]
          have : replaceAllCore pat rep f' rest = replaceAllCore pat rep g' rest := by
            apply ih
            all_goals omega
          rw [this]

theorem replaceAll_nil (pat rep : Str) : replaceAll [] pat rep = [] := by
  unfold replaceAll
  by_cases hp : pat.isEmpty
  · rw [if_pos hp]
  · rw [if_neg hp]
    cases hl : ([] : Str).length <;> rfl

theorem replaceAll_cons_pos (pat rep : Str) {c : Char} {rest : Str}
    (hp : pat.isPrefixOf (c :: rest)) (hne : ¬ pat.isEmpty = true) :
    replaceAll (c :: rest) pat rep = rep ++ replaceAll (rest.drop (pat.length - 1)) pat rep := by
  unfold replaceAll
  rw [if_neg hne, if_neg hne]
  show replaceAllCore pat rep (rest.length + 1) (c :: rest) = _
  simp only [replaceAllCore, if_pos hp]
  have : replaceAllCore pat rep rest.length (rest.drop (pat.length - 1)) =
      replaceAllCore pat rep (rest.drop (pat.length - 1)).length (rest.drop (pat.length - 1)) := by
    apply replaceAllCore_congr pat rep (rest.length + 1)
    all_goals rw [List.length_drop]
    all_goals omega
  rw [this]

theorem replaceAll_cons_neg (pat rep : Str) {c : Char} {rest : Str}
    (hp : ¬ pat.isPrefixOf (c :: rest) = true) (hne : ¬ pat.isEmpty = true) :
    replaceAll (c :: rest) pat rep = c :: replaceAll rest pat rep := by
  unfold replaceAll
  rw [if_neg hne, if_neg hne]
  show replaceAllCore pat rep (rest.length + 1) (c :: rest) = _
  simp only [replaceAllCore, if_neg hp]

theorem replaceAll_id {pat : Str} (rep : Str) :
    ∀ {s : Str}, ¬ pat <:+: s → replaceAll s pat rep = s := by
  intro s
  induction s with
  | nil => intro _; exact replaceAll_nil pat rep
  | cons c rest ih =>
    intro hni
    have hne : ¬ pat.isEmpty = true := by
      intro habs
      rw [List.isEmpty_iff] at habs
      subst habs
      exact hni (List.nil_infix)
    have hp : ¬ pat.isPrefixOf (c :: rest) = true := by
      intro habs
      exact hni (List.isPrefixOf_iff_prefix.mp habs).isInfix
    rw [replaceAll_cons_neg pat rep hp hne]
    rw [ih (fun h => hni (h.trans (List.suffix_cons c rest).isInfix))]

theorem replaceAll_append_pat {pat : Str} (rep : Str) (hph : pat ≠ []) :
    ∀ (seg rest : Str),
      (∀ i, i < seg.length → ¬ pat <+: ((seg ++ pat ++ rest).drop i)) →
      replaceAll (seg ++ pat ++ rest) pat rep = seg ++ rep ++ replaceAll rest pat rep := by
  intro seg
  induction seg with
  | nil =>
    intro rest _
    rcases hpat : pat with _ | ⟨p0, pat'⟩
    · exact absurd hpat hph
    · rw [← hpat]
      have hshape : pat ++ rest = p0 :: (pat' ++ rest) := by rw [hpat]; rfl
      simp only [List.nil_append]
      rw [hshape]
      have hne : ¬ pat.isEmpty = true := by simp [List.isEmpty_iff, hph]
      have hp : pat.isPrefixOf (p0 :: (pat' ++ rest)) = true := by
        rw [List.isPrefixOf_iff_prefix, ← hshape]
        exact List.prefix_append pat rest
      rw [replaceAll_cons_pos pat rep hp hne]
      have hdrop : (pat' ++ rest).drop (pat.length - 1) = rest := by
        have : pat.length - 1 = pat'.length := by rw [hpat]; simp
        rw [this, List.drop_left]
      rw [hdrop]
  | cons c seg' ih =>
    intro rest hocc
    have hne : ¬ pat.isEmpty = true := by simp [List.isEmpty_iff, hph]
    have hshape : (c :: seg') ++ pat ++ rest = c :: (seg' ++ pat ++ rest) := by simp
    have hp : ¬ pat.isPrefixOf (c :: (seg' ++ pat ++ rest)) = true := by
      intro habs
      have h0 := hocc 0 (by simp)
      rw [List.drop_zero] at h0
      exact h0 (by rw [hshape]; exact List.isPrefixOf_iff_prefix.mp habs)
    rw [hshape, replaceAll_cons_neg pat rep hp hne]
    rw [ih rest (fun i hi => by
      have := hocc (i + 1) (by simp; omega)
      rw [show ((c :: seg') ++ pat ++ rest).drop (i + 1) =
        (seg' ++ pat ++ rest).drop i from by simp] at this
      exact this)]
    simp

theorem no_occ_of_borderFree {pat seg : Str} (rest : Str)
    (hbf : BorderFree pat) (hni : ¬ pat <:+: seg) :
    ∀ i, i < seg.length → ¬ pat <+: ((seg ++ pat ++ rest).drop i) := by
  intro i hi hpre
  have hdrop : (seg ++ pat ++ rest).drop i = seg.drop i ++ (pat ++ rest) := by
    rw [List.append_assoc, List.drop_append_of_le_length (by omega)]
  rw [hdrop] at hpre
  have hm : (seg.drop i).length = seg.length - i := List.length_drop i seg
  have hmpos : 0 < (seg.drop i).length := by omega
  by_cases hlen : pat.length ≤ (seg.drop i).length
  · have hpre2 : pat <+: seg.drop i :=
      List.prefix_of_prefix_length_le hpre (List.prefix_append _ _) hlen
    exact hni (hpre2.isInfix.trans (List.drop_suffix i seg).isInfix)
  · push_neg at hlen
    obtain ⟨tail, htail⟩ := hpre
    have hdrop2 : ((seg.drop i) ++ (pat ++ rest)).drop (seg.drop i).length = pat ++ rest :=
      List.drop_left _ _
    have hdrop3 : pat.drop (seg.drop i).length ++ tail = pat ++ rest := by
      rw [← hdrop2, ← htail, List.drop_append_of_le_length (by omega)]
    have hpre3 : pat.drop (seg.drop i).length <+: pat :=
      List.prefix_of_prefix_length_le ⟨tail, hdrop3⟩ (List.prefix_append _ _)
        (by rw [List.length_drop]; omega)
    have heq : pat.drop (seg.drop i).length = pat.take (pat.length - (seg.drop i).length) := by
      have h2 := List.prefix_iff_eq_take.mp hpre3
      rw [h2, List.length_drop]
    have hk : pat.length - (pat.length - (seg.drop i).length) = (seg.drop i).length := by omega
    exact hbf (pat.length - (seg.drop i).length) (by omega) (by omega)
      (by rw [hk]; exact heq.symm)

theorem replaceAll_joinS {pat : Str} (rep : Str) (hbf : BorderFree pat) (hph : pat ≠ []) :
    ∀ (segs : List Str), (∀ s ∈ segs, ¬ pat <:+: s) →
      replaceAll (joinS pat segs) pat rep = joinS rep segs := by
  intro segs
  induction segs with
  | nil => intro _; exact replaceAll_nil pat rep
  | cons s rest ih =>
    intro hni
    cases rest with
    | nil =>
      show replaceAll s pat rep = s
      exact replaceAll_id rep (hni s (List.mem_cons_self _ _))
    | cons s2 rest2 =>
      have hjoin : joinS pat (s :: s2 :: rest2) = s ++ pat ++ joinS pat (s2 :: rest2) := by
        simp [joinS]
      have hjoin2 : joinS rep (s :: s2 :: rest2) = s ++ rep ++ joinS rep (s2 :: rest2) := by
        simp [joinS]
      rw [hjoin, hjoin2]
      rw [replaceAll_append_pat rep hph s (joinS pat (s2 :: rest2))
        (no_occ_of_borderFree _ hbf (hni s (List.mem_cons_self _ _)))]
      rw [ih (fun x hx => hni x (List.mem_cons_of_mem s hx))]

/-! ## `readFileContent` identity lemmas -/

theorem splitOnChar_append_sep (sep : Char) (x : Str) :
    splitOnChar sep (x ++ [sep]) = splitOnChar sep x ++ [[]] := by
  induction x with
  | nil => simp [splitOnChar]
  | cons c rest ih =>
    simp only [List.cons_append, splitOnChar, List.append_eq]
    rw [ih]
    cases h : splitOnChar sep rest with
    | nil => exact absurd h (splitOnChar_ne_nil sep rest)
    | cons a as =>
      by_cases hc : c = sep <;> simp [hc]

theorem dropCR_id {l : Str} (h : '\r' ∉ l) : dropCR l = l := by
  unfold dropCR
  rw [if_neg]
  intro habs
  rw [beq_iff_eq] at habs
  rcases hl : l.reverse with _ | ⟨c, rest⟩
  · rw [List.getLast?_eq_head?_reverse, hl] at habs
    simp at habs
  · rw [List.getLast?_eq_head?_reverse, hl] at habs
    simp only [List.head?_cons, Option.some.injEq] at habs
    apply h
    rw [← List.mem_reverse, hl, habs]
    exact List.mem_cons_self _ _

theorem mem_splitOnChar_subset {sep : Char} {s l : Str} (hl : l ∈ splitOnChar sep s) :
    ∀ c ∈ l, c ∈ s :=
  fun c hc => (infix_of_mem_splitOnChar hl).subset hc

theorem flatten_map_append_sep (sep : Char) :
    ∀ (pieces : List Str), pieces ≠ [] →
      ((pieces.map (fun t => t ++ [sep])).flatten) = joinChar sep pieces ++ [sep] := by
  intro pieces
  induction pieces with
  | nil => intro h; exact absurd rfl h
  | cons p rest ih =>
    intro _
    cases rest with
    | nil => simp [joinChar]
    | cons q rest2 =>
      have hih := ih (by simp)
      simp only [List.map_cons, List.flatten_cons] at hih ⊢
      rw [hih]
      simp [joinChar]

theorem readFileContent_id {s : Str} (hnl : s.getLast? = some '\n') (hcr : '\r' ∉ s)
    (hlen : ∀ l ∈ splitOnChar '\n' s, lineTooLong l = false) :
    readFileContent s = some s := by
  have hne : s ≠ [] := by
    intro habs
    rw [habs] at hnl
    simp at hnl
  obtain ⟨x, hx⟩ : ∃ x, s = x ++ ['\n'] := by
    refine ⟨s.dropLast, ?_⟩
    conv_lhs => rw [← List.dropLast_append_getLast hne]
    have hlast : s.getLast hne = '\n' := by
      have h2 := List.getLast?_eq_getLast s hne
      rw [hnl] at h2
      exact ((Option.some.injEq _ _).mp h2).symm
    rw [hlast]
  subst hx
  have hany : (splitOnChar '\n' (x ++ ['\n'])).any lineTooLong = false := by
    rw [List.any_eq_false]
    intro l hl
    simp [hlen l hl]
  unfold readFileContent
  rw [if_neg (by simp [hany])]
  refine congrArg some ?_
  unfold scanTokens
  rw [if_neg (by simp)]
  rw [splitOnChar_append_sep, List.getLast?_concat]
  simp only [List.dropLast_concat]
  have hmap : (splitOnChar '\n' x).map dropCR = splitOnChar '\n' x := by
    have h2 : ∀ l ∈ splitOnChar '\n' x, dropCR l = l := by
      intro l hl
      apply dropCR_id
      intro hc
      apply hcr
      exact List.mem_append.mpr (Or.inl (mem_splitOnChar_subset hl _ hc))
    calc (splitOnChar '\n' x).map dropCR = (splitOnChar '\n' x).map id :=
          List.map_congr_left h2
      _ = splitOnChar '\n' x := List.map_id _
  rw [hmap, flatten_map_append_sep _ _ (splitOnChar_ne_nil _ _), joinChar_splitOnChar]

theorem processHistoryFile_of_read {ph raw c : Str} {commands : List HistoryEntry}
    (h : readFileContent raw = some c) :
    processHistoryFile ph raw commands =
      processLines (splitOnChar '\n' (replaceMultilineCommands ph c)) commands := by
  unfold processHistoryFile
  rw [h]

theorem charBytes_encodeRune (c : Char) :
    charBytes c = (encodeRune c.toNat).length := by
  unfold charBytes encodeRune
  repeat' split
  all_goals rfl

/-! ## Normalizer lemmas for multi-line records -/

theorem takeWhile_length_concat_notp {p : Char → Bool} {c : Char} (xs : Str)
    (hc : p c = false) :
    ((xs ++ [c]).takeWhile p).length = (xs.takeWhile p).length := by
  rw [List.takeWhile_append]
  by_cases h : (xs.takeWhile p).length = xs.length
  · rw [if_pos h]
    simp [List.takeWhile, hc, h]
  · rw [if_neg h]

theorem timestampMatch_concat_bs (z : Str) :
    timestampMatch (z ++ ['\\']) = timestampMatch z := by
  induction z with
  | nil => simp [timestampMatch]
  | cons c rest ih =>
    simp only [List.cons_append, timestampMatch, List.append_eq]
    rw [ih]
    have hlen : (((rest ++ ['\\']).dropWhile isWS).takeWhile isDigit).length =
        ((rest.dropWhile isWS).takeWhile isDigit).length := by
      rw [List.dropWhile_append]
      by_cases hws : (rest.dropWhile isWS).isEmpty
      · rw [if_pos hws]
        rw [List.isEmpty_iff] at hws
        rw [hws]
        decide
      · rw [if_neg hws]
        exact takeWhile_length_concat_notp _ (by simp [isDigit])
    simp only [hlen]

theorem hasSuffix1_concat (c d : Char) (l : Str) :
    hasSuffix1 c (l ++ [d]) = (d == c) := by
  unfold hasSuffix1
  rw [List.getLast?_concat]
  cases h : d == c
  · simp only [beq_eq_false_iff_ne] at h
    simp [h]
  · rw [beq_iff_eq] at h
    simp [h]

theorem splitOnChar_mkPhys (acc : Str) (segs : List Str) (hacc : '\n' ∉ acc)
    (hsegs : ∀ s ∈ segs, '\n' ∉ s) :
    splitOnChar '\n' (acc ++ joinS ['\\', '\n'] segs ++ ['\n']) = mkPhys acc segs := by
  induction segs generalizing acc with
  | nil =>
    show splitOnChar '\n' (acc ++ [] ++ ['\n']) = [acc, []]
    rw [List.append_nil, show (acc ++ ['\n'] : Str) = acc ++ '\n' :: [] from rfl,
      splitOnChar_append_cons _ hacc]
    rfl
  | cons s rest ih =>
    cases rest with
    | nil =>
      show splitOnChar '\n' (acc ++ s ++ ['\n']) = [acc ++ s, []]
      have hns : '\n' ∉ acc ++ s := by
        intro h
        rcases List.mem_append.mp h with h | h
        · exact hacc h
        · exact hsegs s (List.mem_cons_self _ _) h
      rw [show (acc ++ s ++ ['\n'] : Str) = (acc ++ s) ++ '\n' :: [] from by simp,
        splitOnChar_append_cons _ hns]
      rfl
    | cons s2 rest2 =>
      have hjo : joinS ['\\', '\n'] (s :: s2 :: rest2) =
          s ++ ['\\', '\n'] ++ joinS ['\\', '\n'] (s2 :: rest2) := by simp [joinS]
      rw [hjo]
      have hshape : acc ++ (s ++ ['\\', '\n'] ++ joinS ['\\', '\n'] (s2 :: rest2)) ++ ['\n'] =
          (acc ++ s ++ ['\\']) ++ '\n' :: ([] ++ joinS ['\\', '\n'] (s2 :: rest2) ++ ['\n']) := by
        simp
      rw [hshape]
      have hns : '\n' ∉ acc ++ s ++ ['\\'] := by
        intro h
        rcases List.mem_append.mp h with h | h
        · rcases List.mem_append.mp h with h | h
          · exact hacc h
          · exact hsegs s (List.mem_cons_self _ _) h
        · simp at h
      rw [splitOnChar_append_cons _ hns]
      rw [ih [] (by simp) (fun x hx => hsegs x (List.mem_cons_of_mem s hx))]
      rfl

theorem rmlLoop_mkPhys (ph : Str) :
    ∀ (segs : List Str) (acc : Str), segs ≠ [] →
      (∀ z ∈ segs.tail, timestampMatch z = false) →
      hasSuffix1 '\\' (acc ++ segs.getLastD []) = false →
      rmlLoop ph (mkPhys acc segs) = acc ++ joinS ph segs ++ ['\n'] := by
  intro segs
  induction segs with
  | nil => intro acc h _ _; exact absurd rfl h
  | cons s rest ih =>
    intro acc _ htm hlast
    cases rest with
    | nil =>
      show rmlLoop ph [acc ++ s, []] = acc ++ s ++ ['\n']
      have hsuf : hasSuffix1 '\\' (acc ++ s) = false := by
        simpa using hlast
      simp only [rmlLoop, hsuf, Bool.false_eq_true, if_false]
    | cons s2 rest2 =>
      show rmlLoop ph ((acc ++ s ++ ['\\']) :: mkPhys [] (s2 :: rest2)) = _
      have hhead : ∃ tl suf, mkPhys [] (s2 :: rest2) = (s2 ++ suf) :: tl ∧
          (suf = [] ∨ suf = ['\\']) := by
        cases rest2 with
        | nil => exact ⟨[[]], [], by simp [mkPhys], Or.inl rfl⟩
        | cons s3 rest3 => exact ⟨mkPhys [] (s3 :: rest3), ['\\'], by simp [mkPhys], Or.inr rfl⟩
      obtain ⟨tl, suf, hmk, hsuf⟩ := hhead
      have htm2 : timestampMatch (s2 ++ suf) = false := by
        have hs2 : timestampMatch s2 = false := htm s2 (List.mem_cons_self _ _)
        rcases hsuf with h | h
        · rw [h, List.append_nil, hs2]
        · rw [h, timestampMatch_concat_bs, hs2]
      have hbs : hasSuffix1 '\\' (acc ++ s ++ ['\\']) = true := by
        rw [hasSuffix1_concat]
        rfl
      rw [hmk]
      simp only [rmlLoop, hbs, if_true, htm2, Bool.false_eq_true, if_false]
      have htrim : trimSuffix1 '\\' (acc ++ s ++ ['\\']) = acc ++ s := by
        unfold trimSuffix1
        rw [hbs]
        simp [List.dropLast_concat]
      rw [htrim, ← hmk]
      rw [ih [] (by simp) (fun z hz => htm z (List.mem_cons_of_mem s2 hz)) ?hl]
      case hl =>
        have : (s2 :: rest2).getLastD [] = (s :: s2 :: rest2).getLastD [] := by
          simp [List.getLastD]
        rw [List.nil_append, this]
        rcases hgl : ((s :: s2 :: rest2).getLastD []) with _ | ⟨c0, l0⟩
        · rfl
        · rw [← hgl]
          have hne2 : (s :: s2 :: rest2).getLastD [] ≠ [] := by
            rw [hgl]
            exact List.cons_ne_nil c0 l0
          unfold hasSuffix1 at hlast ⊢
          rw [List.getLast?_append_of_ne_nil acc hne2] at hlast
          exact hlast
      · simp only [List.nil_append]
        have hjo : joinS ph (s :: s2 :: rest2) = s ++ ph ++ joinS ph (s2 :: rest2) := by
          simp [joinS]
        rw [hjo]
        simp

theorem mem_joinS {sep : Str} {c : Char} :
    ∀ {segs : List Str}, c ∈ joinS sep segs → c ∈ sep ∨ ∃ s ∈ segs, c ∈ s := by
  intro segs
  induction segs with
  | nil => intro h; simp [joinS] at h
  | cons s rest ih =>
    intro h
    cases rest with
    | nil =>
      right
      exact ⟨s, List.mem_cons_self _ _, h⟩
    | cons s2 rest2 =>
      have hj : joinS sep (s :: s2 :: rest2) = s ++ sep ++ joinS sep (s2 :: rest2) := by
        simp [joinS]
      rw [hj] at h
      rcases List.mem_append.mp h with h | h
      · rcases List.mem_append.mp h with h | h
        · exact Or.inr ⟨s, List.mem_cons_self _ _, h⟩
        · exact Or.inl h
      · rcases ih h with h | ⟨x, hx, hcx⟩
        · exact Or.inl h
        · exact Or.inr ⟨x, List.mem_cons_of_mem s hx, hcx⟩

theorem recordBody_shape (t d : Nat) (cmd : Str) :
    recordBody t d cmd =
      (':' :: ' ' :: natToDigits t ++ ':' :: natToDigits d ++ [';']) ++ cmd := by
  simp [recordBody]

theorem mem_hdr_cases {t d : Nat} {c : Char}
    (h : c ∈ (':' :: ' ' :: natToDigits t ++ ':' :: natToDigits d ++ [';'] : Str)) :
    c = ':' ∨ c = ' ' ∨ c = ';' ∨ isDigit c = true := by
  rcases List.mem_cons.mp h with h | h
  · exact Or.inl h
  rcases List.mem_cons.mp h with h | h
  · exact Or.inr (Or.inl h)
  rcases List.mem_append.mp h with h | h
  · rcases List.mem_append.mp h with h | h
    · exact Or.inr (Or.inr (Or.inr (natToDigits_all_digits t _ h)))
    · rcases List.mem_cons.mp h with h | h
      · exact Or.inl h
      · exact Or.inr (Or.inr (Or.inr (natToDigits_all_digits d _ h)))
  · rw [List.mem_singleton] at h
    exact Or.inr (Or.inr (Or.inl h))

theorem nl_not_mem_hdr (t d : Nat) :
    '\n' ∉ (':' :: ' ' :: natToDigits t ++ ':' :: natToDigits d ++ [';'] : Str) := by
  intro h
  rcases mem_hdr_cases h with h | h | h | h
  · exact absurd h (by decide)
  · exact absurd h (by decide)
  · exact absurd h (by decide)
  · exact isDigit_ne_nl h rfl

theorem cr_not_mem_recordText {t d : Nat} {cmd : Str} (hcmd : '\r' ∉ cmd) :
    '\r' ∉ recordText t d cmd := by
  unfold recordText
  rw [recordBody_shape]
  intro h
  rcases List.mem_append.mp h with h | h
  · rcases List.mem_append.mp h with h | h
    · rcases mem_hdr_cases h with h | h | h | h
      · exact absurd h (by decide)
      · exact absurd h (by decide)
      · exact absurd h (by decide)
      · exact isDigit_ne_cr h rfl
    · exact hcmd h
  · rw [List.mem_singleton] at h
    exact absurd h (by decide)

/-- Claim C6, amended — round-trip of continuations for a record whose
timestamp has exactly ten digits: a record whose command is a join of
segments by the literal continuation sequence, none of whose
continuation lines matches the code's timestamp pattern, whose
segments avoid newlines, carriage returns and the placeholder token,
whose last segment does not itself end in a backslash, and whose
physical lines all stay under the scanner's 64 KiB token limit (a
longer line makes `bufio.Scanner` fail with `ErrTooLong` and aborts
the run with no output), passes through the full pipeline (read,
normalize to the placeholder, parse, dedup, emit with restoration)
byte-identically, every continuation sequence included; the second
conjunct records that the input really contains a continuation
sequence.  (An eleven-digit timestamp breaks the round trip — see the
counterexample.) -/
theorem claim_C6_amended (ph : Str) (t d : Nat) (segs : List Str)
    (hlen2 : 2 ≤ segs.length)
    (hph_ne : ph ≠ []) (hph_bf : BorderFree ph) (hph_nl : '\n' ∉ ph)
    (ht1 : 10 ^ 9 ≤ t) (ht2 : t < 10 ^ 10) (hd : d < 2 ^ 63)
    (hseg_nl : ∀ s ∈ segs, '\n' ∉ s) (hseg_cr : ∀ s ∈ segs, '\r' ∉ s)
    (hseg_inf : ∀ s ∈ segs, ¬ ph <:+: s)
    (htm : ∀ z ∈ segs.tail, timestampMatch z = false)
    (hlastbs : (segs.getLastD []).getLast? ≠ some '\\')
    (hshort : ∀ l ∈ splitOnChar '\n' (recordText t d (joinS ['\\', '\n'] segs)),
      lineTooLong l = false) :
    pipeline ph [recordText t d (joinS ['\\', '\n'] segs)] =
      some (recordText t d (joinS ['\\', '\n'] segs)) ∧
    ['\\', '\n'] <:+: recordText t d (joinS ['\\', '\n'] segs) := by
  have hp10 : (10 : Nat) ^ 10 = 10000000000 := by norm_num
  have hp63 : (2 : Nat) ^ 63 = 9223372036854775808 := by norm_num
  have hT10 : (natToDigits t).length = 10 := natToDigits_length 9 t ht1 ht2
  have htle : t ≤ 2 ^ 63 - 1 := by omega
  have hdle : d ≤ 2 ^ 63 - 1 := by omega
  have hsegs_ne : segs ≠ [] := by
    intro h
    rw [h] at hlen2
    simp at hlen2
  have hhdr_nl := nl_not_mem_hdr t d
  have hrf : readFileContent (recordText t d (joinS ['\\', '\n'] segs)) =
      some (recordText t d (joinS ['\\', '\n'] segs)) := by
    apply readFileContent_id
    · unfold recordText
      exact List.getLast?_concat _
    · apply cr_not_mem_recordText
      intro h
      rcases mem_joinS h with h | ⟨s, hs, hcs⟩
      · exact absurd h (by decide)
      · exact hseg_cr s hs hcs
    · exact hshort
  have hsplit : splitOnChar '\n' (recordText t d (joinS ['\\', '\n'] segs)) =
      mkPhys (':' :: ' ' :: natToDigits t ++ ':' :: natToDigits d ++ [';']) segs := by
    rw [recordText, recordBody_shape]
    exact splitOnChar_mkPhys _ segs hhdr_nl hseg_nl
  have hlast2 : hasSuffix1 '\\'
      ((':' :: ' ' :: natToDigits t ++ ':' :: natToDigits d ++ [';']) ++ segs.getLastD []) =
      false := by
    rcases hgl : segs.getLastD [] with _ | ⟨c0, l0⟩
    · rw [List.append_nil]
      unfold hasSuffix1
      rw [show (':' :: ' ' :: natToDigits t ++ ':' :: natToDigits d ++ [';'] : Str) =
        (':' :: ' ' :: (natToDigits t ++ ':' :: natToDigits d)) ++ [';'] from by simp,
        List.getLast?_concat]
      rfl
    · unfold hasSuffix1
      rw [List.getLast?_append_of_ne_nil _ (List.cons_ne_nil c0 l0)]
      rw [← hgl]
      rw [beq_eq_false_iff_ne]
      simpa using hlastbs
  have hrml : replaceMultilineCommands ph (recordText t d (joinS ['\\', '\n'] segs)) =
      recordText t d (joinS ph segs) := by
    unfold replaceMultilineCommands
    rw [hsplit, rmlLoop_mkPhys ph segs _ hsegs_ne htm hlast2, recordText, recordBody_shape]
  have hnomem2 : '\n' ∉ recordBody t d (joinS ph segs) := by
    rw [recordBody_shape]
    intro h
    rcases List.mem_append.mp h with h | h
    · exact hhdr_nl h
    · rcases mem_joinS h with h | ⟨s, hs, hcs⟩
      · exact hph_nl h
      · exact hseg_nl s hs hcs
  have hsplit2 : splitOnChar '\n' (recordText t d (joinS ph segs)) =
      [recordBody t d (joinS ph segs), []] := by
    rw [recordText, show recordBody t d (joinS ph segs) ++ ['\n'] =
      recordBody t d (joinS ph segs) ++ '\n' :: [] from rfl,
      splitOnChar_append_cons _ hnomem2]
    rfl
  have hvalid : validLine (recordBody t d (joinS ph segs)) = true :=
    validLine_recordBody _ (by rw [hT10])
  have hparse : parseHistoryLine (recordBody t d (joinS ph segs)) =
      some ⟨joinS ph segs, (t : Int), (d : Int)⟩ :=
    parseHistoryLine_recordBody _ htle hdle
  have hXne : (recordBody t d (joinS ph segs)).isEmpty = false := rfl
  have hproc : processHistoryFile ph (recordText t d (joinS ['\\', '\n'] segs)) [] =
      some [⟨joinS ph segs, (t : Int), (d : Int)⟩] := by
    rw [processHistoryFile_of_read hrf, hrml, hsplit2]
    simp [processLines, hXne, hvalid, hparse, insertEntry]
  have hout : outputMergedCommands ph [⟨joinS ph segs, (t : Int), (d : Int)⟩] =
      recordText t d (joinS ['\\', '\n'] segs) := by
    unfold outputMergedCommands
    have hsort : sortByTime [⟨joinS ph segs, (t : Int), (d : Int)⟩] =
        [⟨joinS ph segs, (t : Int), (d : Int)⟩] := rfl
    rw [hsort]
    simp only [List.map_cons, List.map_nil, List.flatten_cons, List.flatten_nil,
      List.append_nil]
    rw [emitLine_eq ph (joinS ph segs) ht1 ht2,
      replaceAll_joinS ['\\', '\n'] hph_bf hph_ne segs hseg_inf]
    rw [recordText]
  constructor
  · unfold pipeline mergeFiles
    rw [hproc]
    simp only [mergeFiles]
    rw [hout]
  · rcases segs with _ | ⟨s1, segs'⟩
    · simp at hlen2
    rcases segs' with _ | ⟨s2, r⟩
    · simp at hlen2
    refine ⟨(':' :: ' ' :: natToDigits t ++ ':' :: natToDigits d ++ [';']) ++ s1,
      joinS ['\\', '\n'] (s2 :: r) ++ ['\n'], ?_⟩
    rw [recordText, recordBody_shape]
    simp [joinS]

/-- Claim C6, counterexample — a record with an embedded continuation
sequence but an eleven-digit timestamp: the input has the continuation
bytes at character offset 17, but the emitted output drops the space
after the marker (the %11d padding leaves no room), so every byte from
offset 1 on shifts left by one and the continuation sits at offset 16
instead — the sequence is not reproduced at the same position, and the
output line is not byte-identical to the input record. -/
theorem claim_C6_counterexample :
    ((recordText 12345678901 0 (joinS ['\\', '\n'] [['a'], ['b']])).drop 17).take 2 =
      ['\\', '\n'] ∧
    pipeline phTok [recordText 12345678901 0 (joinS ['\\', '\n'] [['a'], ['b']])] =
      some (':' :: (recordText 12345678901 0 (joinS ['\\', '\n'] [['a'], ['b']])).drop 2) ∧
    ((':' :: (recordText 12345678901 0 (joinS ['\\', '\n'] [['a'], ['b']])).drop 2).drop 17).take 2 ≠
      ['\\', '\n'] ∧
    ':' :: (recordText 12345678901 0 (joinS ['\\', '\n'] [['a'], ['b']])).drop 2 ≠
      recordText 12345678901 0 (joinS ['\\', '\n'] [['a'], ['b']]) := by
  refine ⟨by decide, by decide, by decide, by decide⟩

/-- Witness for the amended C6 at a concrete two-segment command. -/
theorem claim_C6_amended_witness :
    pipeline phTok
        [recordText 1600000000 5 (joinS ['\\', '\n'] [['e', 'c', 'h', 'o'], ['l', 's']])] =
      some (recordText 1600000000 5 (joinS ['\\', '\n'] [['e', 'c', 'h', 'o'], ['l', 's']])) ∧
    ['\\', '\n'] <:+: recordText 1600000000 5 (joinS ['\\', '\n'] [['e', 'c', 'h', 'o'], ['l', 's']]) :=
  claim_C6_amended phTok 1600000000 5 [['e', 'c', 'h', 'o'], ['l', 's']]
    (by decide) (by decide) (by unfold BorderFree; decide) (by decide)
    (by norm_num) (by norm_num) (by norm_num)
    (by decide) (by decide) (by decide) (by decide) (by decide) (by decide)

/-! ## Idempotence (C7) -/


theorem nl_not_mem_recordBody {t d : Nat} {cmd : Str} (hcmd : '\n' ∉ cmd) :
    '\n' ∉ recordBody t d cmd := by
  rw [recordBody_shape]
  intro h
  rcases List.mem_append.mp h with h | h
  · exact nl_not_mem_hdr t d h
  · exact hcmd h

theorem hasSuffix1_recordBody {t d : Nat} {cmd : Str}
    (h : cmd.getLast? ≠ some '\\') :
    hasSuffix1 '\\' (recordBody t d cmd) = false := by
  unfold hasSuffix1
  rw [recordBody_shape, List.getLast?_append, List.getLast?_concat]
  cases hc : cmd.getLast? with
  | none => decide
  | some x =>
    rw [hc] at h
    show (some x == some '\\') = false
    exact beq_eq_false_iff_ne.mpr h

theorem splitOnChar_joinChar {sep : Char} :
    ∀ {pieces : List Str}, pieces ≠ [] → (∀ p ∈ pieces, sep ∉ p) →
      splitOnChar sep (joinChar sep pieces) = pieces := by
  intro pieces
  induction pieces with
  | nil => intro h _; exact absurd rfl h
  | cons p rest ih =>
    intro _ h
    cases rest with
    | nil =>
      show splitOnChar sep p = [p]
      exact splitOnChar_not_mem (h p (List.mem_cons_self _ _))
    | cons q rest2 =>
      have hj : joinChar sep (p :: q :: rest2) = p ++ sep :: joinChar sep (q :: rest2) := rfl
      rw [hj, splitOnChar_append_cons _ (h p (List.mem_cons_self _ _))]
      rw [ih (by simp) (fun x hx => h x (List.mem_cons_of_mem p hx))]

theorem filterMap_eq_self_of {α : Type} {f : α → Option α} :
    ∀ {l : List α}, (∀ a ∈ l, f a = some a) → l.filterMap f = l := by
  intro l
  induction l with
  | nil => intro _; rfl
  | cons a t ih =>
    intro h
    rw [List.filterMap_cons, h a (List.mem_cons_self _ _)]
    rw [ih (fun x hx => h x (List.mem_cons_of_mem a hx))]

theorem outputMergedCommands_canonical (ph : Str) (es : List HistoryEntry)
    (hsorted : es.Pairwise (fun a b => a.Time < b.Time))
    (ht : ∀ e ∈ es, 10 ^ 9 ≤ e.Time ∧ e.Time < 10 ^ 10)
    (hdur : ∀ e ∈ es, 0 ≤ e.Duration ∧ e.Duration < 2 ^ 63)
    (hphf : ∀ e ∈ es, ¬ ph <:+: e.Command) :
    outputMergedCommands ph es =
      (es.map (fun e => recordText e.Time.toNat e.Duration.toNat e.Command)).flatten := by
  unfold outputMergedCommands
  rw [sortByTime_sorted_id hsorted]
  congr 1
  apply List.map_congr_left
  intro e he
  have hph : ¬ ph <:+: e.Command := hphf e he
  obtain ⟨h1, h2⟩ := ht e he
  obtain ⟨h3, h4⟩ := hdur e he
  obtain ⟨cmd, T, D⟩ := e
  simp only at h1 h2 h3 h4 hph ⊢
  have hT : T = ((T.toNat : Nat) : Int) := (Int.toNat_of_nonneg (by omega)).symm
  have hD : D = ((D.toNat : Nat) : Int) := (Int.toNat_of_nonneg h3).symm
  have ht1 : 10 ^ 9 ≤ T.toNat := by omega
  have ht2 : T.toNat < 10 ^ 10 := by omega
  conv_lhs => rw [hT, hD]
  rw [emitLine_eq ph cmd ht1 ht2]
  rw [replaceAll_id ['\\', '\n'] hph]
  rfl

theorem parseHistoryLine_entry {e : HistoryEntry}
    (h1 : 10 ^ 9 ≤ e.Time) (h2 : e.Time < 10 ^ 10)
    (h3 : 0 ≤ e.Duration) (h4 : e.Duration < 2 ^ 63) :
    parseHistoryLine (recordBody e.Time.toNat e.Duration.toNat e.Command) = some e := by
  obtain ⟨cmd, T, D⟩ := e
  simp only at h1 h2 h3 h4 ⊢
  have ht : T.toNat ≤ 2 ^ 63 - 1 := by omega
  have hd : D.toNat ≤ 2 ^ 63 - 1 := by omega
  rw [parseHistoryLine_recordBody cmd ht hd]
  rw [Int.toNat_of_nonneg (by omega : (0:Int) ≤ T), Int.toNat_of_nonneg h3]

theorem recordLine_roundtrip (e : HistoryEntry)
    (h1 : 10 ^ 9 ≤ e.Time) (h2 : e.Time < 10 ^ 10)
    (h3 : 0 ≤ e.Duration) (h4 : e.Duration < 2 ^ 63) :
    (if validLine (recordBody e.Time.toNat e.Duration.toNat e.Command) then
        parseHistoryLine (recordBody e.Time.toNat e.Duration.toNat e.Command)
      else none) = some e := by
  have hL : (natToDigits e.Time.toNat).length = 10 :=
    natToDigits_length 9 e.Time.toNat (by omega) (by omega)
  rw [if_pos (validLine_recordBody _ (by omega))]
  exact parseHistoryLine_entry h1 h2 h3 h4

theorem pipeline_roundtrip_aux (ph : Str) (es : List HistoryEntry)
    (hne : es ≠ [])
    (hsorted : es.Pairwise (fun a b => a.Time < b.Time))
    (hnodup : (es.map (fun e => e.Command)).Nodup)
    (ht : ∀ e ∈ es, 10 ^ 9 ≤ e.Time ∧ e.Time < 10 ^ 10)
    (hdur : ∀ e ∈ es, 0 ≤ e.Duration ∧ e.Duration < 2 ^ 63)
    (hnl : ∀ e ∈ es, '\n' ∉ e.Command)
    (hcr : ∀ e ∈ es, '\r' ∉ e.Command)
    (hbs : ∀ e ∈ es, e.Command.getLast? ≠ some '\\')
    (hphf : ∀ e ∈ es, ¬ ph <:+: e.Command)
    (hshort : ∀ e ∈ es,
      lineTooLong (recordBody e.Time.toNat e.Duration.toNat e.Command) = false) :
    pipeline ph [outputMergedCommands ph es] = some (outputMergedCommands ph es) := by
  have hout := outputMergedCommands_canonical ph es hsorted ht hdur hphf
  set L : List Str := es.map (fun e => recordBody e.Time.toNat e.Duration.toNat e.Command)
    with hLdef
  have hLne : L ≠ [] := by
    rw [hLdef]
    simpa using hne
  have hflat : outputMergedCommands ph es = (L.map (fun t => t ++ ['\n'])).flatten := by
    rw [hout, hLdef, List.map_map]
    rfl
  have hjoin : outputMergedCommands ph es = joinChar '\n' L ++ ['\n'] := by
    rw [hflat, flatten_map_append_sep '\n' L hLne]
  have hLnl : ∀ l ∈ L, '\n' ∉ l := by
    intro l hl
    rw [hLdef] at hl
    obtain ⟨e, he, rfl⟩ := List.mem_map.mp hl
    exact nl_not_mem_recordBody (hnl e he)
  have hLbs : ∀ l ∈ L, hasSuffix1 '\\' l = false := by
    intro l hl
    rw [hLdef] at hl
    obtain ⟨e, he, rfl⟩ := List.mem_map.mp hl
    exact hasSuffix1_recordBody (hbs e he)
  have hcrout : '\r' ∉ outputMergedCommands ph es := by
    rw [hout]
    intro habs
    obtain ⟨piece, hpmem, hpin⟩ := List.mem_flatten.mp habs
    obtain ⟨e, he, rfl⟩ := List.mem_map.mp hpmem
    exact cr_not_mem_recordText (hcr e he) hpin
  have hlastout : (outputMergedCommands ph es).getLast? = some '\n' := by
    rw [hjoin]
    exact List.getLast?_concat _
  have hsplit : splitOnChar '\n' (outputMergedCommands ph es) = L ++ [[]] := by
    rw [hjoin, splitOnChar_append_sep, splitOnChar_joinChar hLne hLnl]
  have hrml : replaceMultilineCommands ph (outputMergedCommands ph es) =
      outputMergedCommands ph es := by
    apply replaceMultilineCommands_id
    intro l hl
    rw [hsplit] at hl
    rcases List.mem_append.mp hl with hl | hl
    · exact hLbs l hl
    · rw [List.mem_singleton] at hl
      subst hl
      rfl
  have hok : ∀ l ∈ L ++ [[]], validLine l = true → (parseHistoryLine l).isSome := by
    intro l hl hv
    rcases List.mem_append.mp hl with hl | hl
    · rw [hLdef] at hl
      obtain ⟨e, he, rfl⟩ := List.mem_map.mp hl
      rw [parseHistoryLine_entry (ht e he).1 (ht e he).2 (hdur e he).1 (hdur e he).2]
      rfl
    · rw [List.mem_singleton] at hl
      subst hl
      rw [validLine_nil] at hv
      exact absurd hv (by simp)
  have hproc : processLines (L ++ [[]]) [] = some es := by
    rw [processLines_ok (L ++ [[]]) [] hok]
    congr 1
    have hfm : (L ++ [[]]).filterMap
        (fun l => if validLine l then parseHistoryLine l else none) = es := by
      rw [List.filterMap_append]
      have h2 : (([[]] : List Str)).filterMap
          (fun l => if validLine l then parseHistoryLine l else none) = [] := by
        simp [validLine_nil]
      rw [h2, List.append_nil, hLdef, List.filterMap_map]
      apply filterMap_eq_self_of
      intro e he
      exact recordLine_roundtrip e (ht e he).1 (ht e he).2 (hdur e he).1 (hdur e he).2
    rw [hfm]
    rw [foldl_insertEntry_nodup es [] (by simpa using hnodup)]
    rw [List.nil_append]
  have hread : readFileContent (outputMergedCommands ph es) =
      some (outputMergedCommands ph es) := by
    apply readFileContent_id hlastout hcrout
    intro l hl
    rw [hsplit] at hl
    rcases List.mem_append.mp hl with hl | hl
    · rw [hLdef] at hl
      obtain ⟨e, he, rfl⟩ := List.mem_map.mp hl
      exact hshort e he
    · rw [List.mem_singleton] at hl
      subst hl
      rfl
  have hPHF : processHistoryFile ph (outputMergedCommands ph es) [] = some es := by
    rw [processHistoryFile_of_read hread, hrml, hsplit]
    exact hproc
  have hmf : mergeFiles ph [outputMergedCommands ph es] [] = some es := by
    unfold mergeFiles
    rw [hPHF]
    rfl
  unfold pipeline
  rw [hmf]

/-- Claim C7, counterexample — idempotence fails on a record with an
eleven-digit timestamp: the engine accepts the input record
`": 12345678901:0;x\n"` and emits `":12345678901:0;x\n"` (the `%11d`
padding leaves no space after the marker), and feeding that output back
as the single input file yields empty output, not the same bytes: the
space-less line fails the validator and the record is silently dropped
under the Lenient policy. -/
theorem claim_C7_counterexample :
    pipeline phTok [(": 12345678901:0;x\n").toList] =
      some ((":12345678901:0;x\n").toList) ∧
    pipeline phTok [(":12345678901:0;x\n").toList] = some [] ∧
    (":12345678901:0;x\n").toList ≠ ([] : Str) := by
  refine ⟨by decide, by decide, by decide⟩

/-- Claim C7, amended — idempotence holds on merged output under these
provisos, each of which is necessary: every retained record has a
ten-digit timestamp (an eleven-digit one loses the marker space and is
dropped on re-input), the timestamps are pairwise distinct (the
relative order of tied records comes from randomized map iteration and
need not be reproduced), the command texts are pairwise distinct and
free of newlines, carriage returns, the placeholder token and a
trailing backslash (a trailing backslash makes re-input join the line
to its successor), the durations fit in a signed 64-bit integer, and
every emitted line stays under the scanner's 64 KiB token limit: then
feeding the emitted output back through the whole pipeline as the
single input file reproduces it byte for byte, for every extraction
order of the merge table. -/
theorem claim_C7_amended (ph : Str) (es : List HistoryEntry)
    (hdist : es.Pairwise (fun a b => a.Time ≠ b.Time))
    (hnodup : (es.map (fun e => e.Command)).Nodup)
    (ht : ∀ e ∈ es, 10 ^ 9 ≤ e.Time ∧ e.Time < 10 ^ 10)
    (hdur : ∀ e ∈ es, 0 ≤ e.Duration ∧ e.Duration < 2 ^ 63)
    (hnl : ∀ e ∈ es, '\n' ∉ e.Command)
    (hcr : ∀ e ∈ es, '\r' ∉ e.Command)
    (hbs : ∀ e ∈ es, e.Command.getLast? ≠ some '\\')
    (hphf : ∀ e ∈ es, ¬ ph <:+: e.Command)
    (hshort : ∀ e ∈ es,
      lineTooLong (recordBody e.Time.toNat e.Duration.toNat e.Command) = false) :
    pipeline ph [outputMergedCommands ph es] = some (outputMergedCommands ph es) := by
  rcases hes : es with _ | ⟨e0, es0⟩
  · rfl
  · subst hes
    have hperm : (sortByTime (e0 :: es0)).Perm (e0 :: es0) := sortByTime_perm _
    have hsub : ∀ e ∈ sortByTime (e0 :: es0), e ∈ e0 :: es0 :=
      fun e he => hperm.subset he
    have hsymm : ∀ {a b : HistoryEntry}, a.Time ≠ b.Time → b.Time ≠ a.Time :=
      fun h heq => h heq.symm
    have hsorted : (sortByTime (e0 :: es0)).Pairwise (fun a b => a.Time < b.Time) := by
      have h1 := sortByTime_pairwise (e0 :: es0)
      have h2 : (sortByTime (e0 :: es0)).Pairwise (fun a b => a.Time ≠ b.Time) :=
        (hperm.pairwise_iff hsymm).mpr hdist
      exact (h1.and h2).imp (fun h => lt_of_le_of_ne h.1 h.2)
    have hne : sortByTime (e0 :: es0) ≠ [] := by
      intro habs
      have hlen := hperm.length_eq
      rw [habs] at hlen
      simp at hlen
    have hnodupS : ((sortByTime (e0 :: es0)).map (fun e => e.Command)).Nodup :=
      ((hperm.map (fun e => e.Command)).nodup_iff).mpr hnodup
    have hout_eq : outputMergedCommands ph (e0 :: es0) =
        outputMergedCommands ph (sortByTime (e0 :: es0)) := by
      unfold outputMergedCommands
      rw [sortByTime_sorted_id hsorted]
    rw [hout_eq]
    exact pipeline_roundtrip_aux ph (sortByTime (e0 :: es0)) hne hsorted hnodupS
      (fun e he => ht e (hsub e he)) (fun e he => hdur e (hsub e he))
      (fun e he => hnl e (hsub e he)) (fun e he => hcr e (hsub e he))
      (fun e he => hbs e (hsub e he)) (fun e he => hphf e (hsub e he))
      (fun e he => hshort e (hsub e he))

/-- Witness for the amended C7 at a concrete two-record table, listed
in non-sorted extraction order. -/
theorem claim_C7_amended_witness :
    pipeline phTok [outputMergedCommands phTok [ordA, ordB]] =
      some (outputMergedCommands phTok [ordA, ordB]) :=
  claim_C7_amended phTok [ordA, ordB]
    (by decide) (by decide) (by decide) (by decide) (by decide) (by decide)
    (by decide) (by decide) (by decide)
